import Mathlib

/-!
Verification of the Mornin audiobook-reader core against its specification.

JavaScript strings are modelled as `List Char`; the JS string operations the
source relies on (`split(/\s+/)`, `split(/(?<=[.!?])\s+/)`, `split(/\n\s*\n/)`,
`trim`, `slice`, regex scanning for chapter markers, `replace`) are embedded
as executable functions with JavaScript semantics (in particular,
`"".split(/\s+/)` has length 1, and a leading or trailing whitespace run
contributes an empty field to the split).
-/

namespace Mornin

set_option maxRecDepth 200000

/-- Character class of the JavaScript regex `\s` (also used by `String.prototype.trim`). -/
def isWS (c : Char) : Bool :=
  let n := c.toNat
  n = 9 || n = 10 || n = 11 || n = 12 || n = 13 || n = 32 ||
  n = 160 || n = 5760 || (8192 ≤ n && n ≤ 8202) || n = 8232 || n = 8233 ||
  n = 8239 || n = 8287 || n = 12288 || n = 65279

/-- JS `str.split(/\s+/)`: fields between maximal whitespace runs, keeping the
empty fields produced by a leading or trailing run; `"".split(/\s+/) = [""]`. -/
def splitWS : List Char → List (List Char)
  | [] => [[]]
  | c :: cs =>
    if isWS c then
      match cs with
      | c2 :: _ => if isWS c2 then splitWS cs else [] :: splitWS cs
      | [] => [] :: splitWS cs
    else
      match splitWS cs with
      | p :: ps => (c :: p) :: ps
      | [] => [[c]]

/-- The word-count idiom used throughout the source: `text.split(/\s+/).length`. -/
def jsWordCount (cs : List Char) : Nat := (splitWS cs).length

/-- Maximal whitespace-free words of a text, in order.  This is not a function of
the source; it formalises "the text, compared modulo whitespace differences". -/
def wordsOf : List Char → List (List Char)
  | [] => []
  | [c] => if isWS c then [] else [[c]]
  | c :: c2 :: cs =>
    if isWS c then wordsOf (c2 :: cs)
    else if isWS c2 then [c] :: wordsOf (c2 :: cs)
    else
      match wordsOf (c2 :: cs) with
      | w :: ws => (c :: w) :: ws
      | [] => [[c]]

/-- Sum of the word counts of a list of pieces — the quantity the greedy
loops accumulate in their `currentWordCount` counters. -/
def sumWC (l : List (List Char)) : Nat := (l.map jsWordCount).sum

/-- JS `String.prototype.trim`. -/
def jsTrim (cs : List Char) : List Char :=
  ((cs.dropWhile isWS).reverse.dropWhile isWS).reverse

/-- Terminator characters recognised by the sentence-splitting lookbehind `(?<=[.!?])`. -/
def isSentEnd (c : Char) : Bool := c = '.' || c = '!' || c = '?'

/-- Worker for `sentSplit`.  `skip = true` means we are inside an already-matched
separator run and are discarding its remaining whitespace; `p` is the previous
character (the lookbehind).  Structural recursion on the text so that the kernel
can evaluate it. -/
def sentGo : Bool → Char → List Char → List (List Char)
  | _, _, [] => [[]]
  | true, p, c :: cs =>
    if isWS c then sentGo true p cs
    else
      match sentGo false c cs with
      | q :: qs => (c :: q) :: qs
      | [] => [[c]]
  | false, p, c :: cs =>
    if isWS c && isSentEnd p then [] :: sentGo true c cs
    else
      match sentGo false c cs with
      | q :: qs => (c :: q) :: qs
      | [] => [[c]]

/-- JS `text.split(/(?<=[.!?])\s+/)`: split at maximal whitespace runs that are
preceded by `.`, `!` or `?`.  There is no lookbehind at position 0, hence the
non-terminator seed character. -/
def sentSplit (cs : List Char) : List (List Char) := sentGo false 'A' cs

/-- Number of newline characters in a list. -/
def nlCount (cs : List Char) : Nat := cs.countP (fun c => c = '\n')

/-- Attach a list of characters to the front of the first piece. -/
def consPiece (c : Char) : List (List Char) → List (List Char)
  | p :: ps => (c :: p) :: ps
  | [] => [[c]]

/-- Attach a run of characters to the front of the first piece. -/
def consRun (run : List Char) : List (List Char) → List (List Char)
  | p :: ps => (run ++ p) :: ps
  | [] => [run]

/-- Reassemble a paragraph split from the leading whitespace run `ld` of the
current suffix and the split `af` of the suffix after that run.  A separator
`/\n\s*\n/` matches inside `ld` exactly when `ld` contains at least two
newlines; the greedy match then runs from the first to the last newline of
the run. -/
def paraRebuild (ld : List Char) (af : List (List Char)) : List (List Char) :=
  if 2 ≤ nlCount ld then
    (ld.takeWhile (fun c => c ≠ '\n')) ::
      consRun ((ld.reverse.takeWhile (fun c => c ≠ '\n')).reverse) af
  else consRun ld af

/-- Worker for `paraSplit`: for each suffix, the leading whitespace run together
with the paragraph split of what follows that run. -/
def paraGo : List Char → List Char × List (List Char)
  | [] => ([], [[]])
  | c :: cs =>
    let r := paraGo cs
    if isWS c then (c :: r.1, r.2)
    else ([], consPiece c (paraRebuild r.1 r.2))

/-- JS `text.split(/\n\s*\n/)`. -/
def paraSplit (cs : List Char) : List (List Char) :=
  paraRebuild (paraGo cs).1 (paraGo cs).2

/-! ### Chapter marker scanning

Embedding of the source regex
`/\n\s*(CHAPTER|Chapter|PART|Part|BOOK|Book|ACT|Act|SECTION|Section)\s+([IVXLCDM\d]+[.:)  ]*.*)/g`.
No two alternatives can match at the same position, the keyword can only start
at the end of the maximal whitespace run after the newline (it begins with a
letter), and the match always extends to the end of the line, so the scan is
deterministic. -/

/-- Marker keywords, in the alternation order of the source regex. -/
def markerKeywords : List (List Char) :=
  ["CHAPTER".data, "Chapter".data, "PART".data, "Part".data, "BOOK".data,
   "Book".data, "ACT".data, "Act".data, "SECTION".data, "Section".data]

/-- Characters matched by `[IVXLCDM\d]`. -/
def isRomanOrDigit (c : Char) : Bool :=
  c = 'I' || c = 'V' || c = 'X' || c = 'L' || c = 'C' || c = 'D' || c = 'M' ||
  (('0' : Char) ≤ c && c ≤ '9')

/-- Try to match the marker regex at a newline; `cs` is the text after the
newline.  Returns the number of characters consumed after the newline and the
full match (including the newline). -/
def tryMarker (cs : List Char) : Option (Nat × List Char) :=
  let ws1 := cs.takeWhile isWS
  let r1 := cs.drop ws1.length
  match markerKeywords.find? (fun k => k.isPrefixOf r1) with
  | none => none
  | some k =>
    let r2 := r1.drop k.length
    let ws2 := r2.takeWhile isWS
    if ws2.length = 0 then none
    else
      let r3 := r2.drop ws2.length
      let nums := r3.takeWhile isRomanOrDigit
      if nums.length = 0 then none
      else
        let r4 := r3.drop nums.length
        let tl := r4.takeWhile (fun c => c ≠ '\n')
        let len := ws1.length + k.length + ws2.length + nums.length + tl.length
        some (len, '\n' :: (ws1 ++ k ++ ws2 ++ nums ++ tl))

/-- Global scan for marker matches, continuing after each match as the JS
`exec` loop does.  Fuel-indexed so that the kernel can evaluate it; the fuel is
instantiated with the text length, which bounds the number of scan steps. -/
def findMarkersGo : Nat → Nat → List Char → List (Nat × List Char)
  | 0, _, _ => []
  | _ + 1, _, [] => []
  | fuel + 1, i, c :: cs =>
    if c = '\n' then
      match tryMarker cs with
      | some (len, matched) =>
        (i, jsTrim matched) :: findMarkersGo fuel (i + 1 + len) (cs.drop len)
      | none => findMarkersGo fuel (i + 1) cs
    else findMarkersGo fuel (i + 1) cs

/-- All marker matches of the text: `(match.index, match[0].trim())` pairs. -/
def findMarkers (text : List Char) : List (Nat × List Char) :=
  findMarkersGo (text.length + 1) 0 text

/-! ### The segmentation engine (src/lib/chunker.ts) -/

def TARGET_WORDS : Nat := 450

def MIN_WORDS : Nat := 150

def MAX_CHAPTER_WORDS : Nat := 580

structure Chapter where
  index : Nat
  title : String
  text : List Char
  wordCount : Nat
  deriving Repr, DecidableEq

/-- Sequential chapter title, `Chapter ${n}`. -/
def chapTitle (n : Nat) : String := "Chapter " ++ toString n

/-- Set every chapter's `index` to its position; the source assigns
`index: chapters.length` at each push and re-indexes after an `unshift`, which
amounts to exactly this. -/
def reindex (l : List Chapter) : List Chapter :=
  l.mapIdx fun i ch => { ch with index := i }

/-- Convert the marker list to `(start, end, label)` slices, the end being the
next marker's index or the text length. -/
def markerSlices (len : Nat) : List (Nat × List Char) → List (Nat × Nat × List Char)
  | [] => []
  | [(s, lab)] => [(s, len, lab)]
  | (s, lab) :: (s2, lab2) :: rest =>
    (s, s2, lab) :: markerSlices len ((s2, lab2) :: rest)

/-- Build the marker-derived chapters, discarding any slice of 20 or fewer
words (`wordCount > 20` filter of the source). -/
def buildFromSlices (text : List Char) : List (Nat × Nat × List Char) → List Chapter
  | [] => []
  | (s, e, lab) :: rest =>
    let chText := jsTrim ((text.drop s).take (e - s))
    let wc := jsWordCount chText
    if wc > 20 then
      { index := 0, title := String.mk (lab.take 80), text := chText, wordCount := wc } ::
        buildFromSlices text rest
    else buildFromSlices text rest

/-- The marker branch: slice at markers, filter tiny chapters, prepend a
`Preface` chapter when the text before the first marker has more than 50
words, and re-index. -/
def markerChapters (text : List Char) (markers : List (Nat × List Char)) : List Chapter :=
  let base := buildFromSlices text (markerSlices text.length markers)
  let withPre :=
    match markers with
    | (s0, _) :: _ =>
      if s0 > 0 then
        let preface := jsTrim (text.take s0)
        let pw := jsWordCount preface
        if pw > 50 then
          { index := 0, title := "Preface", text := preface, wordCount := pw } :: base
        else base
      else base
    | [] => base
  reindex withPre

/-- Greedy accumulation loop shared by the paragraph and sentence paths:
push the current group as a chapter when adding the next piece would exceed
`TARGET_WORDS` and the group already has at least `MIN_WORDS` words.  `sep` is
the join separator (`"\n\n"` for paragraphs, `" "` for sentences). -/
def greedyLoop (sep : List Char) :
    List Chapter → List (List Char) → Nat → List (List Char) →
      List Chapter × List (List Char) × Nat
  | chapters, current, cw, [] => (chapters, current, cw)
  | chapters, current, cw, piece :: rest =>
    let pw := jsWordCount piece
    if cw + pw > TARGET_WORDS ∧ cw ≥ MIN_WORDS then
      let pushed := chapters ++
        [{ index := chapters.length, title := chapTitle (chapters.length + 1),
           text := List.intercalate sep current, wordCount := cw }]
      greedyLoop sep pushed [piece] pw rest
    else greedyLoop sep chapters (current ++ [piece]) (cw + pw) rest

/-- Replace the last element of a list. -/
def modifyLast (f : α → α) : List α → List α
  | [] => []
  | [a] => [f a]
  | a :: rest => a :: modifyLast f rest

/-- Flush of the greedy loops: an undersized trailing group is merged into the
previous chapter (joined by `sep`), otherwise it becomes a final chapter. -/
def greedyFlush (sep : List Char)
    (chapters : List Chapter) (current : List (List Char)) (cw : Nat) : List Chapter :=
  if current = [] then chapters
  else if cw < MIN_WORDS ∧ chapters ≠ [] then
    modifyLast (fun last =>
      { last with text := last.text ++ sep ++ List.intercalate sep current,
                  wordCount := last.wordCount + cw }) chapters
  else
    chapters ++
      [{ index := chapters.length, title := chapTitle (chapters.length + 1),
         text := List.intercalate sep current, wordCount := cw }]

/-- Inner loop of `enforceMaxChapterSize`: greedy re-accumulation of the
sentences of one oversized chapter, pushing onto the global result list. -/
def emcsLoop :
    List Chapter → List (List Char) → Nat → List (List Char) →
      List Chapter × List (List Char) × Nat
  | result, current, cw, [] => (result, current, cw)
  | result, current, cw, s :: rest =>
    let sw := jsWordCount s
    if cw + sw > TARGET_WORDS ∧ cw ≥ MIN_WORDS then
      let pushed := result ++
        [{ index := result.length, title := chapTitle (result.length + 1),
           text := List.intercalate [' '] current, wordCount := cw }]
      emcsLoop pushed [s] sw rest
    else emcsLoop result (current ++ [s]) (cw + sw) rest

/-- Flush of the `enforceMaxChapterSize` inner loop: an undersized trailing
group is merged into the preceding chapter of the result. -/
def emcsFlush (result : List Chapter) (current : List (List Char)) (cw : Nat) :
    List Chapter :=
  if current = [] then result
  else if cw < MIN_WORDS ∧ result ≠ [] then
    modifyLast (fun last =>
      { last with text := last.text ++ [' '] ++ List.intercalate [' '] current,
                  wordCount := last.wordCount + cw }) result
  else
    result ++
      [{ index := result.length, title := chapTitle (result.length + 1),
         text := List.intercalate [' '] current, wordCount := cw }]

/-- Process one chapter of `enforceMaxChapterSize`: chapters at or below the
hard cap are re-indexed and kept; oversized ones are split at sentence
boundaries with the target/minimum logic. -/
def emcsStep (result : List Chapter) (ch : Chapter) : List Chapter :=
  if ch.wordCount ≤ MAX_CHAPTER_WORDS then
    result ++ [{ ch with index := result.length }]
  else
    let st := emcsLoop result [] 0 (sentSplit ch.text)
    emcsFlush st.1 st.2.1 st.2.2

/-- Post-pass of the segmentation engine (`enforceMaxChapterSize` in
src/lib/chunker.ts): split any chapter exceeding `MAX_CHAPTER_WORDS` at
sentence boundaries. -/
def enforceMaxChapterSize (chapters : List Chapter) : List Chapter :=
  chapters.foldl emcsStep []

/-- The segmentation engine, `chunkIntoChapters` of src/lib/chunker.ts. -/
def chunkIntoChapters (text : List Char) : List Chapter :=
  let totalWords := jsWordCount text
  if totalWords ≤ 550 then
    [{ index := 0, title := "Full Text", text := text, wordCount := totalWords }]
  else
    let markers := findMarkers text
    let markerResult : Option (List Chapter) :=
      if markers.length ≥ 2 then
        let chs := markerChapters text markers
        if chs.length ≥ 2 then some (enforceMaxChapterSize chs) else none
      else none
    match markerResult with
    | some r => r
    | none =>
      let paragraphs := ((paraSplit text).map jsTrim).filter (fun p => p.length > 0)
      let paraResult : Option (List Chapter) :=
        if paragraphs.length ≥ 2 then
          let st := greedyLoop ['\n', '\n'] [] [] 0 paragraphs
          let chs := greedyFlush ['\n', '\n'] st.1 st.2.1 st.2.2
          if chs.length ≥ 2 then some (enforceMaxChapterSize chs) else none
        else none
      match paraResult with
      | some r => r
      | none =>
        let st := greedyLoop [' '] [] [] 0 (sentSplit text)
        enforceMaxChapterSize (greedyFlush [' '] st.1 st.2.1 st.2.2)

/-! ### The TTS text preprocessor (src/lib/tts-preprocessor.ts)

Embedding of the variant of the preprocessor that does not depend on the
external `any-ascii` package; the global-`replace` passes are embedded one by
one with JavaScript semantics (scan left to right, never rescan a
replacement), fuel-indexed by the text length where the recursion is not
structural so that the kernel can still evaluate them. -/

/-- JS global `replace` of a literal non-empty pattern. -/
def replaceSubGo (pat rep : List Char) : Nat → List Char → List Char
  | 0, cs => cs
  | _, [] => []
  | fuel + 1, c :: cs =>
    if pat.isPrefixOf (c :: cs) then
      rep ++ replaceSubGo pat rep fuel ((c :: cs).drop pat.length)
    else c :: replaceSubGo pat rep fuel cs

/-- JS `t.replace(pat, rep)` for a literal pattern. -/
def replaceSub (pat rep cs : List Char) : List Char :=
  replaceSubGo pat rep cs.length cs

/-- JS global `replace` of a single-character class by a fixed string. -/
def replaceClass (p : Char → Bool) (rep : List Char) (cs : List Char) : List Char :=
  cs.flatMap fun c => if p c then rep else [c]

/-- JS global `replace` of a run `ch{minTotal,}` by `rep` (used for
`/ {2,}/`, `/\.{2,}/`, `/\n{4,}/` and `/\n{3,}/`). -/
def collapseRunGo (ch : Char) (minTotal : Nat) (rep : List Char) :
    Nat → List Char → List Char
  | 0, cs => cs
  | _, [] => []
  | fuel + 1, c :: cs =>
    if c = ch then
      let run := cs.takeWhile (fun x => x = ch)
      if run.length + 1 ≥ minTotal then rep ++ collapseRunGo ch minTotal rep fuel (cs.drop run.length)
      else c :: collapseRunGo ch minTotal rep fuel cs
    else c :: collapseRunGo ch minTotal rep fuel cs

/-- Entry point of `collapseRunGo` with fuel set to the text length. -/
def collapseRun (ch : Char) (minTotal : Nat) (rep : List Char) (cs : List Char) : List Char :=
  collapseRunGo ch minTotal rep cs.length cs

/-- JS `t.replace(/,\s*,/g, ",")`. -/
def collapseCommasGo : Nat → List Char → List Char
  | 0, cs => cs
  | _, [] => []
  | fuel + 1, c :: cs =>
    if c = ',' then
      let ws := cs.takeWhile isWS
      match cs.drop ws.length with
      | ',' :: rest => ',' :: collapseCommasGo fuel rest
      | _ => c :: collapseCommasGo fuel cs
    else c :: collapseCommasGo fuel cs

/-- JS `t.replace(/,\s*,/g, ",")` with fuel set to the text length. -/
def collapseCommas (cs : List Char) : List Char := collapseCommasGo cs.length cs

/-- Digit characters, the `\d` class. -/
def isDigitCh (c : Char) : Bool := ('0' : Char) ≤ c && c ≤ '9'

/-- Word characters, the `\w` class. -/
def isWordCh (c : Char) : Bool :=
  (('a' : Char) ≤ c && c ≤ 'z') || (('A' : Char) ≤ c && c ≤ 'Z') || isDigitCh c || c = '_'

/-- JS global `replace` of `open` `\d+` `close` by `rep` (used for
`/\[\d+\]/` and the analogous brace pattern). -/
def removeBracketNumGo (op cl : Char) (rep : List Char) : Nat → List Char → List Char
  | 0, cs => cs
  | _, [] => []
  | fuel + 1, c :: cs =>
    if c = op then
      let ds := cs.takeWhile isDigitCh
      if ds.length > 0 then
        match cs.drop ds.length with
        | c2 :: rest => if c2 = cl then rep ++ removeBracketNumGo op cl rep fuel rest
                        else c :: removeBracketNumGo op cl rep fuel cs
        | [] => c :: removeBracketNumGo op cl rep fuel cs
      else c :: removeBracketNumGo op cl rep fuel cs
    else c :: removeBracketNumGo op cl rep fuel cs

/-- Entry point of `removeBracketNumGo` with fuel set to the text length. -/
def removeBracketNum (op cl : Char) (rep : List Char) (cs : List Char) : List Char :=
  removeBracketNumGo op cl rep cs.length cs

/-- JS `t.replace(/&#\d+;/g, " ")`. -/
def removeNumEntityGo : Nat → List Char → List Char
  | 0, cs => cs
  | _, [] => []
  | fuel + 1, c :: cs =>
    match c, cs with
    | '&', '#' :: cs2 =>
      let ds := cs2.takeWhile isDigitCh
      if ds.length > 0 then
        match cs2.drop ds.length with
        | ';' :: rest => ' ' :: removeNumEntityGo fuel rest
        | _ => '&' :: removeNumEntityGo fuel cs
      else '&' :: removeNumEntityGo fuel cs
    | _, _ => c :: removeNumEntityGo fuel cs

/-- Entry point of `removeNumEntityGo` with fuel set to the text length. -/
def removeNumEntity (cs : List Char) : List Char := removeNumEntityGo cs.length cs

/-- JS `t.replace(/&\w+;/g, " ")`. -/
def removeWordEntityGo : Nat → List Char → List Char
  | 0, cs => cs
  | _, [] => []
  | fuel + 1, c :: cs =>
    if c = '&' then
      let ws := cs.takeWhile isWordCh
      if ws.length > 0 then
        match cs.drop ws.length with
        | ';' :: rest => ' ' :: removeWordEntityGo fuel rest
        | _ => '&' :: removeWordEntityGo fuel cs
      else '&' :: removeWordEntityGo fuel cs
    else c :: removeWordEntityGo fuel cs

/-- Entry point of `removeWordEntityGo` with fuel set to the text length. -/
def removeWordEntity (cs : List Char) : List Char := removeWordEntityGo cs.length cs

/-- JS `t.replace(/\*{1,3}/g, "")`: every asterisk run disappears, up to three
at a time. -/
def removeAsterisksGo : Nat → List Char → List Char
  | 0, cs => cs
  | _, [] => []
  | fuel + 1, c :: cs =>
    if c = '*' then
      let run := cs.takeWhile (fun x => x = '*')
      removeAsterisksGo fuel (cs.drop (min run.length 2))
    else c :: removeAsterisksGo fuel cs

/-- Entry point of `removeAsterisksGo` with fuel set to the text length. -/
def removeAsterisks (cs : List Char) : List Char := removeAsterisksGo cs.length cs

/-- Unicode ranges of `NON_LATIN_RE`. -/
def isNonLatin (c : Char) : Bool :=
  let n := c.toNat
  (0x370 ≤ n && n ≤ 0x3FF) || (0x400 ≤ n && n ≤ 0x4FF) || (0x500 ≤ n && n ≤ 0x52F) ||
  (0x600 ≤ n && n ≤ 0x6FF) || (0x900 ≤ n && n ≤ 0x97F) || (0x980 ≤ n && n ≤ 0x9FF) ||
  (0xA00 ≤ n && n ≤ 0xA7F) || (0xB00 ≤ n && n ≤ 0xB7F) || (0xC00 ≤ n && n ≤ 0xC7F) ||
  (0xD00 ≤ n && n ≤ 0xD7F) || (0xE00 ≤ n && n ≤ 0xE7F) || (0x1000 ≤ n && n ≤ 0x109F) ||
  (0x1100 ≤ n && n ≤ 0x11FF) || (0x3000 ≤ n && n ≤ 0x9FFF) ||
  (0xAC00 ≤ n && n ≤ 0xD7AF) || (0xF900 ≤ n && n ≤ 0xFAFF)

/-- Unicode ranges of `EXTENDED_LATIN_RE`. -/
def isExtLatin (c : Char) : Bool :=
  let n := c.toNat
  (0xC0 ≤ n && n ≤ 0xD6) || (0xD8 ≤ n && n ≤ 0xF6) || (0xF8 ≤ n && n ≤ 0xFF) ||
  (0x100 ≤ n && n ≤ 0x17E) || (0x180 ≤ n && n ≤ 0x24F)

/-- Characters kept by the `alphaChars` filter of `isNonEnglishLine`. -/
def isAlphaKeep (c : Char) : Bool :=
  let n := c.toNat
  (('a' : Char) ≤ c && c ≤ 'z') || (('A' : Char) ≤ c && c ≤ 'Z') ||
  isExtLatin c || (0x370 ≤ n && n ≤ 0x9FFF) || (0xAC00 ≤ n && n ≤ 0xD7AF)

/-- Heuristic of the source: a line is primarily non-English when more than
40 percent of its alphabetic characters are non-Latin or extended Latin. -/
def isNonEnglishLine (line : List Char) : Bool :=
  let trimmed := jsTrim line
  if trimmed.length < 3 then false
  else
    let alphaChars := trimmed.filter isAlphaKeep
    if alphaChars.length < 3 then false
    else
      let cnt := alphaChars.countP (fun c => isNonLatin c || isExtLatin c)
      5 * cnt > 2 * alphaChars.length

/-- JS `text.split(sep)` for a single separator character. -/
def splitChar (sep : Char) : List Char → List (List Char)
  | [] => [[]]
  | c :: cs => if c = sep then [] :: splitChar sep cs else consPiece c (splitChar sep cs)

/-- Worker of `replaceNonEnglishBlocks`: collapse consecutive non-English
lines into a single spoken note. -/
def rnebGo : Bool → List (List Char) → List (List Char)
  | _, [] => []
  | inForeign, line :: rest =>
    if isNonEnglishLine line then
      if inForeign then rnebGo true rest
      else "[Foreign language passage.]".data :: rnebGo true rest
    else line :: rnebGo false rest

/-- Stage (1) of `preprocessForTTS`. -/
def replaceNonEnglishBlocks (cs : List Char) : List Char :=
  List.intercalate ['\n'] (rnebGo false (splitChar '\n' cs))

/-- Stage (2) of `preprocessForTTS`, `cleanSpecialCharacters`: the exact
sequence of `replace` passes of the source, in order. -/
def cleanSpecialCharacters (cs : List Char) : List Char :=
  let t := cs
  let t := replaceSub "&amp;".data "and".data t
  let t := replaceSub "&nbsp;".data " ".data t
  let t := replaceSub "&mdash;".data ", ".data t
  let t := replaceSub "&ndash;".data ", ".data t
  let t := replaceSub "&ldquo;".data "\"".data t
  let t := replaceSub "&rdquo;".data "\"".data t
  let t := replaceSub "&lsquo;".data "\x27".data t
  let t := replaceSub "&rsquo;".data "\x27".data t
  let t := replaceSub "&hellip;".data "...".data t
  let t := removeNumEntity t
  let t := removeWordEntity t
  let t := replaceClass (fun c => c.toNat = 0x2014 || c.toNat = 0x2013) ", ".data t
  let t := collapseCommas t
  let t := replaceClass (fun c => c.toNat = 0x2026) "...".data t
  let t := replaceClass (fun c => c = '&') " and ".data t
  let t := removeBracketNum '[' ']' [] t
  let t := removeBracketNum (Char.ofNat 0x7B) (Char.ofNat 0x7D) [] t
  let t := removeAsterisks t
  let t := replaceClass (fun c =>
    [0xAB, 0xBB, 0x2039, 0x203A, 0x201E, 0x22, 0x201F, 0x201B,
     0x275D, 0x275E, 0x276E, 0x276F].contains c.toNat) "\"".data t
  let t := replaceClass (fun c =>
    [0x27, 0x201A, 0x201B, 0x275B, 0x275C].contains c.toNat) "\x27".data t
  let t := replaceClass (fun c =>
    [0x2022, 0xB7, 0x25CF].contains c.toNat) ". ".data t
  let t := replaceClass (fun c =>
    [0x2020, 0x2021, 0xA7, 0xB6].contains c.toNat) [] t
  let t := replaceClass (fun c =>
    [0x2122, 0xA9, 0xAE].contains c.toNat) [] t
  let t := replaceClass (fun c =>
    [0xA0, 0x200B, 0x200C, 0x200D, 0xFEFF, 0xAD].contains c.toNat) " ".data t
  let t := replaceClass (fun c => c = '\t') " ".data t
  let t := collapseRun ' ' 2 " ".data t
  t

/-- JS `t.replace(/^[ \t]+/gm, "")`: strip the leading space-or-tab run of
every line.  The `Bool` is true at a line start. -/
def stripIndentGo : Bool → List Char → List Char
  | _, [] => []
  | true, c :: cs =>
    if c = ' ' || c = '\t' then stripIndentGo true cs
    else if c = '\n' then c :: stripIndentGo true cs
    else c :: stripIndentGo false cs
  | false, c :: cs =>
    if c = '\n' then c :: stripIndentGo true cs
    else c :: stripIndentGo false cs

/-- JS `t.replace(/([^\n])\n([^\n])/g, "$1. $2")`.  The second captured
character is consumed by the match, so scanning continues after it — an
alternating sequence of single line breaks is only half-joined in one pass. -/
def singleBreaks : List Char → List Char
  | a :: nl :: b :: rest =>
    if a ≠ '\n' ∧ nl = '\n' ∧ b ≠ '\n' then
      a :: '.' :: ' ' :: b :: singleBreaks rest
    else a :: singleBreaks (nl :: b :: rest)
  | short => short

/-- JS `t.replace(/([.!?])\.\s/g, "$1 ")`. -/
def fixDoubledPeriod : List Char → List Char
  | a :: b :: c :: rest =>
    if isSentEnd a ∧ b = '.' ∧ isWS c then
      a :: ' ' :: fixDoubledPeriod rest
    else a :: fixDoubledPeriod (b :: c :: rest)
  | short => short

/-- Stage (3) of `preprocessForTTS`, `cleanPoetryFormatting`. -/
def cleanPoetryFormatting (cs : List Char) : List Char :=
  let t := cs
  let t := stripIndentGo true t
  let t := collapseRun '\n' 4 "\n\n\n".data t
  let t := singleBreaks t
  let t := fixDoubledPeriod t
  let t := collapseRun '.' 2 "...".data t
  t

/-- The standard TTS preprocessor, `preprocessForTTS` of
src/lib/tts-preprocessor.ts (the variant without the external `any-ascii`
transliteration dependency). -/
def preprocessForTTS (cs : List Char) : List Char :=
  let t := cs
  let t := replaceNonEnglishBlocks t
  let t := cleanSpecialCharacters t
  let t := cleanPoetryFormatting t
  let t := collapseRun ' ' 2 " ".data t
  jsTrim t

/-- Characters kept by the second `aggressiveCleanup` pass,
`[a-zA-Z0-9\s.,!?'":;\-()]` — letters, digits, `\s` and the listed
punctuation only; in particular the underscore is not kept. -/
def isAggressiveKeep (c : Char) : Bool :=
  (('a' : Char) ≤ c && c ≤ 'z') || (('A' : Char) ≤ c && c ≤ 'Z') || isDigitCh c || isWS c ||
  ['.', ',', '!', '?', '\x27', '"', ':', ';', '-', '(', ')'].contains c

/-- The destructive fallback cleaner, `aggressiveCleanup` of
src/lib/tts-preprocessor.ts. -/
def aggressiveCleanup (cs : List Char) : List Char :=
  let t := cs
  let t := replaceClass (fun c => !(0x20 ≤ c.toNat && c.toNat ≤ 0x7E) && c ≠ '\n') " ".data t
  let t := replaceClass (fun c => !(isAggressiveKeep c)) " ".data t
  let t := collapseRun ' ' 2 " ".data t
  let t := collapseRun '\n' 3 "\n\n".data t
  let lines := splitChar '\n' t
  let cleaned := lines.filter fun line =>
    let trimmed := jsTrim line
    trimmed.length = 0 ∨ jsWordCount trimmed ≥ 2
  let t := List.intercalate ['\n'] cleaned
  jsTrim t

/-- Worker loop of `splitIfTooLong`. -/
def sitlLoop (maxWords : Nat) :
    List (List Char) → List (List Char) → Nat → List (List Char) →
      List (List Char) × List (List Char) × Nat
  | chunks, current, cw, [] => (chunks, current, cw)
  | chunks, current, cw, s :: rest =>
    let sw := jsWordCount s
    if cw + sw > maxWords ∧ cw > 0 then
      sitlLoop maxWords (chunks ++ [List.intercalate [' '] current]) [s] sw rest
    else sitlLoop maxWords chunks (current ++ [s]) (cw + sw) rest

/-- The oversize safety net, `splitIfTooLong` of src/lib/tts-preprocessor.ts. -/
def splitIfTooLong (text : List Char) (maxWords : Nat) : List (List Char) :=
  if (splitWS text).length ≤ maxWords then [text]
  else
    let st := sitlLoop maxWords [] [] 0 (sentSplit text)
    if st.2.1 = [] then st.1
    else st.1 ++ [List.intercalate [' '] st.2.1]

/-! ### The cache and metadata store (src/lib/library-db.ts, version 2)

The IndexedDB store is modelled as association lists; `put` is an upsert on
the key, `get` a lookup, key-ordered iteration a structural recursion. -/

/-- An opaque audio blob: its byte size plus an identifying payload. -/
structure Blob where
  size : Nat
  payload : String
  deriving Repr, DecidableEq

/-- The `audioCache` object store: key-to-blob entries with unique keys. -/
abbrev AudioCache := List (String × Blob)

/-- Lookup in an object store keyed by the first component. -/
def cacheGet (cache : AudioCache) (key : String) : Option Blob :=
  (cache.find? fun e => e.1 = key).map (·.2)

/-- IndexedDB `put`: replace the entry with the same key, or append. -/
def cachePut (key : String) (b : Blob) : AudioCache → AudioCache
  | [] => [(key, b)]
  | (k0, b0) :: rest =>
    if k0 = key then (key, b) :: rest else (k0, b0) :: cachePut key b rest

/-- JS `String.prototype.startsWith`. -/
def jsStartsWith (s p : String) : Bool := p.data.isPrefixOf s.data

structure Book where
  id : String
  url : String
  title : String
  author : String
  chapters : List Chapter
  dateAdded : Nat
  lastPlayed : Nat
  deriving Repr, DecidableEq

structure BookProgress where
  bookId : String
  currentChapter : Nat
  currentTime : ℚ
  completed : Bool
  deriving Repr, DecidableEq

structure Bookmark where
  id : String
  bookId : String
  chapterIndex : Nat
  time : ℚ
  label : String
  createdAt : Nat
  deriving Repr, DecidableEq

/-- IndexedDB `put` into the `books` store (keyed by `id`): replace the entry
with the same key, or append. -/
def putBook : List Book → Book → List Book
  | [], b => [b]
  | x :: rest, b => if x.id = b.id then b :: rest else x :: putBook rest b

/-- IndexedDB `get` from the `books` store, `getBook` of src/lib/library-db.ts. -/
def getBook (books : List Book) (id : String) : Option Book :=
  books.find? fun b => b.id = id

/-- IndexedDB `put` into the `progress` store (keyed by `bookId`). -/
def putProgress : List BookProgress → BookProgress → List BookProgress
  | [], p => [p]
  | x :: rest, p => if x.bookId = p.bookId then p :: rest else x :: putProgress rest p

/-- IndexedDB `put` into the `bookmarks` store (keyed by `id`). -/
def putBookmark : List Bookmark → Bookmark → List Bookmark
  | [], b => [b]
  | x :: rest, b => if x.id = b.id then b :: rest else x :: putBookmark rest b

/-- The whole persistent store. -/
structure LibraryStore where
  books : List Book
  audioCache : AudioCache
  progress : List BookProgress
  bookmarks : List Bookmark
  deriving Repr, DecidableEq

/-- Cache key `${bookId}-${chapterIndex}-${voiceId}` (or without the voice when
none is given), `audioCacheKey` of src/lib/library-db.ts. -/
def audioCacheKey (bookId : String) (chapterIndex : Nat) (voiceId : Option String) : String :=
  match voiceId with
  | some v => bookId ++ "-" ++ toString chapterIndex ++ "-" ++ v
  | none => bookId ++ "-" ++ toString chapterIndex

def DOWNLOAD_VOICE_ID : String := "en-US-SteffanNeural"

def MAX_DOWNLOAD_BYTES : Nat := 20 * 1024 * 1024 * 1024

/-- Book deletion with cascading cleanup, `deleteBook` of
src/lib/library-db.ts: the book record, every audio-cache entry whose key
starts with `` `${id}-` ``, and the progress record are removed. -/
def deleteBook (id : String) (st : LibraryStore) : LibraryStore :=
  { st with
    books := st.books.filter fun b => b.id ≠ id
    audioCache := st.audioCache.filter fun e => !(jsStartsWith e.1 (id ++ "-"))
    progress := st.progress.filter fun p => p.bookId ≠ id }

/-- Cascade removal of a book's cached audio, `deleteBookAudioCache` of
src/lib/library-db.ts: delete every entry whose key starts with
`` `${bookId}-` `` and return the bytes freed. -/
def deleteBookAudioCache (bookId : String) : AudioCache → Nat × AudioCache
  | [] => (0, [])
  | (k, b) :: rest =>
    let r := deleteBookAudioCache bookId rest
    if jsStartsWith k (bookId ++ "-") then (b.size + r.1, r.2)
    else (r.1, (k, b) :: r.2)

/-- Cached-chapter counter for the download voice, `getBookCachedChapterCount`
of src/lib/library-db.ts. -/
def getBookCachedChapterCount (cache : AudioCache) (bookId : String) (totalChapters : Nat) : Nat :=
  (List.range totalChapters).countP fun i =>
    (cacheGet cache (audioCacheKey bookId i (some DOWNLOAD_VOICE_ID))).isSome

/-- Total cached-audio size, `getTotalAudioCacheSize` of src/lib/library-db.ts. -/
def getTotalAudioCacheSize (cache : AudioCache) : Nat :=
  (cache.map fun e => e.2.size).sum

/-! ### The download pipeline (`handleDownload` of the library page)

The synthesis collaborator is a deterministic oracle
`tts : String → Option Blob`; `none` is a failed `/api/tts` call.  The
cooperative abort flag is `false` throughout (the claims concern runs to
completion without cancellation) and the UI progress maps are elided; the
cache writes, the tier order, the per-chapter placeholder text and the final
status computation follow the source. -/

/-- The tier-3 placeholder utterance for chapter `chIdx` (0-based), exactly the
template string of the source. -/
def placeholderText (chIdx : Nat) : String :=
  "Chapter " ++ toString (chIdx + 1) ++
    " could not be generated. The text may contain content that is not supported by the audio reader. Please read this section in text mode."

/-- Up to `n` synthesis attempts on the same text (the `MAX_RETRIES` loop; the
inter-attempt delay is time-only and elided). -/
def ttsAttempts (tts : String → Option Blob) (text : String) : Nat → Option Blob
  | 0 => none
  | n + 1 =>
    match tts text with
    | some b => some b
    | none => ttsAttempts tts text n

def MAX_RETRIES : Nat := 3

/-- Per-chapter three-tier fallback of `handleDownload`: up to `MAX_RETRIES`
attempts on the preprocessed text, one on the aggressively cleaned text, one
on the placeholder utterance; each success is written to the cache under the
download-voice key, and a chapter where even the placeholder attempt fails
writes nothing. -/
def processChapter (tts : String → Option Blob) (bookId : String) (chIdx : Nat)
    (chText : List Char) (cache : AudioCache) : AudioCache :=
  let key := audioCacheKey bookId chIdx (some DOWNLOAD_VOICE_ID)
  match ttsAttempts tts (String.mk (preprocessForTTS chText)) MAX_RETRIES with
  | some b => cachePut key b cache
  | none =>
    match tts (String.mk (aggressiveCleanup chText)) with
    | some b => cachePut key b cache
    | none =>
      match tts (placeholderText chIdx) with
      | some b => cachePut key b cache
      | none => cache

/-- The chapter loop of `handleDownload` over the indices still to generate. -/
def downloadLoop (tts : String → Option Blob) (book : Book) :
    AudioCache → List Nat → AudioCache
  | cache, [] => cache
  | cache, i :: rest =>
    let chText := (book.chapters.getD i ⟨0, "", [], 0⟩).text
    downloadLoop tts book (processChapter tts book.id i chText cache) rest

/-- The download pipeline, `handleDownload` of the library page: refuse at the
storage ceiling (leaving the previous status), short-circuit to `downloaded`
when nothing remains, otherwise process the missing chapters and report
`downloaded` exactly when every chapter index is cached afterwards. -/
def handleDownload (tts : String → Option Blob) (book : Book)
    (totalStorageUsed : Nat) (prevStatus : String) (cache : AudioCache) :
    AudioCache × String :=
  if totalStorageUsed ≥ MAX_DOWNLOAD_BYTES then (cache, prevStatus)
  else
    let toGenerate := (List.range book.chapters.length).filter fun i =>
      (cacheGet cache (audioCacheKey book.id i (some DOWNLOAD_VOICE_ID))).isNone
    if toGenerate = [] then (cache, "downloaded")
    else
      let fcache := downloadLoop tts book cache toGenerate
      let finalCached := getBookCachedChapterCount fcache book.id book.chapters.length
      (fcache, if finalCached ≥ book.chapters.length then "downloaded" else "none")

/-! ### The sync engine (src/lib/cloud-sync.ts) -/

def SENTINEL_KEY : String := "mornin-sync-initialized"

/-- Browser `localStorage`, keys to string values. -/
abbrev LocalStorage := List (String × String)

/-- JS `localStorage.getItem`. -/
def lsGet (ls : LocalStorage) (key : String) : Option String :=
  (ls.find? fun e => e.1 = key).map (·.2)

/-- JS `localStorage.setItem`: replace the entry with the same key, or append. -/
def lsSet : LocalStorage → String → String → LocalStorage
  | [], key, v => [(key, v)]
  | e :: rest, key, v =>
    if e.1 = key then (key, v) :: rest else e :: lsSet rest key v

/-- JS truthiness of `localStorage.getItem(k)`: present and non-empty. -/
def lsTruthy (ls : LocalStorage) (key : String) : Bool :=
  match lsGet ls key with
  | some s => s ≠ ""
  | none => false

/-- A decoded `SyncSnapshot` (compression is transport-only and elided). -/
structure SyncSnapshot where
  version : Nat
  timestamp : Nat
  localStorage : List (String × String)
  books : List Book
  progress : List BookProgress
  bookmarks : List Bookmark
  deriving Repr, DecidableEq

/-- Device-local state touched by the sync engine. -/
structure SyncState where
  ls : LocalStorage
  books : List Book
  progress : List BookProgress
  bookmarks : List Bookmark
  deriving Repr, DecidableEq

/-- Snapshot replay, `restoreFromCloud` of src/lib/cloud-sync.ts: write the
snapshot's localStorage pairs, then `put` its books, progress records and
bookmarks into the local store. -/
def restoreFromCloud (snap : SyncSnapshot) (st : SyncState) : SyncState :=
  { ls := snap.localStorage.foldl (fun acc kv => lsSet acc kv.1 kv.2) st.ls
    books := snap.books.foldl putBook st.books
    progress := snap.progress.foldl putProgress st.progress
    bookmarks := snap.bookmarks.foldl putBookmark st.bookmarks }

/-- Outcome of a `restoreIfNeeded` call: the new state, whether a remote fetch
was performed, whether a restore was replayed, and the returned boolean. -/
structure RestoreOutcome where
  state : SyncState
  fetched : Bool
  restored : Bool
  result : Bool
  deriving Repr, DecidableEq

/-- First-run restore, `restoreIfNeeded` of src/lib/cloud-sync.ts.  `remote`
is the remote snapshot endpoint (`none` is a 404 or failure), `now` the clock
value written into the sentinel. -/
def restoreIfNeeded (remote : Option SyncSnapshot) (now : Nat) (st : SyncState) :
    RestoreOutcome :=
  if lsTruthy st.ls SENTINEL_KEY then
    { state := st, fetched := false, restored := false, result := false }
  else
    let st1 :=
      match remote with
      | some snap => restoreFromCloud snap st
      | none => st
    let st2 := { st1 with ls := lsSet st1.ls SENTINEL_KEY (toString now) }
    { state := st2, fetched := true, restored := remote.isSome, result := remote.isSome }

/-! ### Importing books (AddBookForm and the archive bulk import) -/

/-- A successful `/api/extract` response. -/
structure ExtractData where
  title : String
  author : String
  chapters : List Chapter
  deriving Repr, DecidableEq

/-- The single-URL add form, `handleSubmit` of AddBookForm.tsx: on a
successful extraction a fresh book (fresh random `id`) is stored with
`url.trim()` as its source URL — there is no duplicate check.  `extractResult`
is the extraction collaborator's response for this URL. -/
def handleSubmit (extractResult : Option ExtractData) (newId : String) (url : String)
    (now : Nat) (books : List Book) : List Book :=
  if jsTrim url.data = [] then books
  else
    match extractResult with
    | none => books
    | some d =>
      putBook books
        { id := newId, url := String.mk (jsTrim url.data), title := d.title,
          author := d.author, chapters := d.chapters, dateAdded := now, lastPlayed := 0 }

/-- An entry of the readings archive (`readings.json`); `rtype` is the JSON
field `type`. -/
structure Reading where
  title : String
  author : String
  rtype : String
  url : String
  deriving Repr, DecidableEq

/-- The `TYPE_PRIORITY` table, with the `?? 99` fallback. -/
def typePriority (t : String) : Nat :=
  if t = "poem" then 0
  else if t = "speech" then 1
  else if t = "essay" then 1
  else if t = "short story" then 2
  else if t = "philosophy" then 3
  else if t = "novella" then 4
  else if t = "short story collection" then 5
  else 99

/-- Extraction phase of the archive import: successful extractions are stored
via `addBook` in order (`pos` is the position in `toImport`, used for the id
and the descending `dateAdded`); failures are skipped.  The batching in threes
only bounds concurrency and the UI progress state is elided. -/
def importLoop (extract : String → Option ExtractData) (mkId : Nat → String) (now : Nat) :
    List Book → Nat → List Reading → List Book
  | books, _, [] => books
  | books, pos, r :: rest =>
    match extract r.url with
    | some d =>
      let book : Book :=
        { id := mkId pos, url := r.url,
          title := if d.title = "" then r.title else d.title,
          author := if d.author = "" then r.author else d.author,
          chapters := d.chapters, dateAdded := now - pos, lastPlayed := 0 }
      importLoop extract mkId now (putBook books book) (pos + 1) rest
    | none => importLoop extract mkId now books (pos + 1) rest

/-- The archive bulk import, `handleImportArchive` of the library page:
filter out readings whose URL is already a stored book's URL, sort by type
priority (stable), then extract-and-add.  The chapter-one audio pregeneration
phase does not touch the books store and is elided. -/
def handleImportArchive (extract : String → Option ExtractData) (mkId : Nat → String)
    (now : Nat) (readings : List Reading) (books : List Book) : List Book :=
  let existingUrls := books.map fun b => b.url
  let toImport :=
    (readings.filter fun r => ¬ existingUrls.contains r.url).mergeSort
      fun a b => typePriority a.rtype ≤ typePriority b.rtype
  importLoop extract mkId now books 0 toImport

/-! ### Playback navigation (`prevChapter` of the library audio provider)

The session state is reduced to what `prevChapter` touches: the loaded book,
the current chapter index, and the audio element's `currentTime` (in seconds,
`none` when no element exists).  `loadAndPlayChapter` is taken as an opaque
state transformer — the claim only concerns the paths that do not call it. -/

structure PlayerState where
  book : Option Book
  currentChapter : Option Nat
  audio : Option ℚ

/-- Previous-chapter navigation, `prevChapter` of the library audio provider:
past three seconds it restarts the current chapter; otherwise it goes to the
previous chapter when one exists, and at chapter 0 it merely rewinds. -/
def prevChapter (load : Book → Nat → PlayerState → PlayerState) (s : PlayerState) :
    PlayerState :=
  match s.book, s.currentChapter with
  | some bk, some cur =>
    match s.audio with
    | some t =>
      if t > 3 then { s with audio := some 0 }
      else
        if 1 ≤ cur then load bk (cur - 1) s
        else { s with audio := some 0 }
    | none =>
      if 1 ≤ cur then load bk (cur - 1) s
      else s
  | _, _ => s

/-! ### Concrete inputs used by counterexamples and witnesses -/

/-- A 300-word marker line, `\nChapter <n>` followed by 298 times `w`. -/
def markerLine (n : String) : List Char :=
  ("\nChapter " ++ n ++ " ").data ++ (String.join (List.replicate 297 "w ")).data ++ ['w']

/-- A 604-word text with three chapter markers whose third marker-chapter has
only 4 words and is discarded by the marker path. -/
def tMarkers : List Char :=
  markerLine "1" ++ markerLine "2" ++ "\nChapter 3 w w".data

/-- A 45-word sentence: 44 times `a` followed by `a.`. -/
def sent45 : List Char := (String.join (List.replicate 44 "a ")).data ++ "a.".data

/-- A 585-word marker chapter on one line: `Chapter 1` followed by thirteen
45-word sentences (the marker words count towards the first sentence). -/
def oversizeLine : List Char :=
  "\nChapter 1 ".data ++ (String.join (List.replicate 42 "a ")).data ++ "a. ".data ++
    List.intercalate [' '] (List.replicate 12 sent45)

/-- An 885-word text with two chapter markers whose first chapter has 585
words: `enforceMaxChapterSize` splits it at sentence boundaries, pushes a
450-word piece, and then merges the undersized 135-word tail back into it,
yielding a 585-word chapter again. -/
def tOversize : List Char := oversizeLine ++ markerLine "2"


/-- Representative already-clean English prose, sample 1. -/
def cleanSampleA : List Char :=
  ("It was a bright cold day in April, and the clocks were striking thirteen. " ++
   "Winston Smith, his chin nuzzled into his breast in an effort to escape the " ++
   "vile wind, slipped quickly through the glass doors.\n\nThe hallway smelt of " ++
   "boiled cabbage and old rag mats. At one end of it a coloured poster, too " ++
   "large for indoor display, had been tacked to the wall.").data

/-- Representative already-clean English prose, sample 2. -/
def cleanSampleB : List Char :=
  ("Call me Ishmael. Some years ago, never mind how long precisely, having " ++
   "little or no money in my purse, I thought I would sail about a little and " ++
   "see the watery part of the world. It is a way I have of driving off the " ++
   "spleen and regulating the circulation.").data

/-- Representative already-clean English prose, sample 3. -/
def cleanSampleC : List Char :=
  ("\"Have you anything to say?\" asked the judge. The prisoner shook his head; " ++
   "he had nothing more to offer. And yet, in that moment, everyone present " ++
   "understood what silence meant.\n\nOutside, rain fell on the courthouse steps.").data

/-- A one-chapter book used by the download-pipeline examples. -/
def bookHi : Book :=
  { id := "bk", url := "https://example.org/hi", title := "Hi", author := "A",
    chapters := [{ index := 0, title := "Full Text", text := "Hi.".data, wordCount := 1 }],
    dateAdded := 0, lastPlayed := 0 }

/-- A synthesis oracle on which every call fails. -/
def ttsFailAll : String → Option Blob := fun _ => none

/-- The placeholder blob of the C3 witness oracle. -/
def phBlob : Blob := { size := 5, payload := "ph" }

/-- An oracle failing on everything except the chapter-1 placeholder text. -/
def ttsOnlyPlaceholder : String → Option Blob :=
  fun s => if s = placeholderText 0 then some phBlob else none

/-- A store with two books whose ids are `b` and `bb` and one cached blob for
each, for the prefix-matching counterexample. -/
def stPrefixPair : LibraryStore :=
  { books :=
      [{ id := "b", url := "u1", title := "B", author := "", chapters := [],
         dateAdded := 0, lastPlayed := 0 },
       { id := "bb", url := "u2", title := "BB", author := "", chapters := [],
         dateAdded := 0, lastPlayed := 0 }]
    audioCache := [("b-0-v", { size := 3, payload := "x" }),
                   ("bb-0-v", { size := 4, payload := "y" })]
    progress := []
    bookmarks := [] }

/-- Extraction result used by the duplicate-import counterexample. -/
def edOne : ExtractData :=
  { title := "T", author := "A",
    chapters := [{ index := 0, title := "Full Text", text := "x".data, wordCount := 1 }] }

/-- Two consecutive single-URL submissions of the same URL. -/
def booksAfterTwoSubmits : List Book :=
  handleSubmit (some edOne) "i2" "u" 1 (handleSubmit (some edOne) "i1" "u" 0 [])

/-- A fresh device state: no sentinel, empty stores. -/
def syncStFresh : SyncState := { ls := [], books := [], progress := [], bookmarks := [] }

/-- A remote snapshot holding exactly one book. -/
def snapOne : SyncSnapshot :=
  { version := 1, timestamp := 0, localStorage := [], books := [bookHi],
    progress := [], bookmarks := [] }

/-- A one-entry readings archive. -/
def readingsOne : List Reading := [{ title := "R", author := "A", rtype := "poem", url := "u" }]

/-- An extraction oracle that succeeds on every URL with the same content. -/
def extractAlways : String → Option ExtractData := fun _ => some edOne

/-- A no-op chapter loader for the playback witnesses. -/
def loadStub : Book → Nat → PlayerState → PlayerState := fun _ _ s => s

/-- A playback state at chapter 0, five seconds in. -/
def pstate0 : PlayerState :=
  { book := some bookHi, currentChapter := some 0, audio := some 5 }

/-! ## Theorems -/

/-- C5 (counterexample): segmentation of the empty input does not return the
empty chapter list. -/
theorem C5_counterexample : chunkIntoChapters "".data ≠ [] := by decide

/-- C5 (amended): segmentation of the empty input takes the short-text path
and returns a single `Full Text` chapter with the empty text and wordCount 1
(the value of `"".split(/\s+/).length`), not an empty list. -/
theorem C5_amended :
    chunkIntoChapters "".data =
      [{ index := 0, title := "Full Text", text := [], wordCount := 1 }] := rfl

/-- C10: when the playback position is past three seconds, `prevChapter` does
not navigate — it rewinds the current chapter to position 0 and leaves the
chapter index unchanged; and at chapter 0 with position at most three seconds
it also merely rewinds to 0. -/
theorem C10_prevChapter (load : Book → Nat → PlayerState → PlayerState)
    (s : PlayerState) (bk : Book) (cur : Nat) (t : ℚ)
    (hb : s.book = some bk) (hc : s.currentChapter = some cur) (ha : s.audio = some t) :
    (3 < t → prevChapter load s = { s with audio := some 0 }) ∧
    (cur = 0 → t ≤ 3 → prevChapter load s = { s with audio := some 0 }) := by
  constructor
  · intro h3
    simp only [prevChapter, hb, hc, ha]
    rw [if_pos h3]
  · intro hcur h3
    simp only [prevChapter, hb, hc, ha, hcur]
    rw [if_neg (by exact not_lt.mpr h3), if_neg (by omega)]

/-- C10 (witness): the concrete five-seconds-in state at chapter 0. -/
theorem C10_prevChapter_witness :
    (3 : ℚ) < 5 ∧ prevChapter loadStub pstate0 = { pstate0 with audio := some 0 } :=
  ⟨by norm_num,
   (C10_prevChapter loadStub pstate0 bookHi 0 5 rfl rfl rfl).1 (by norm_num)⟩

/-- C4 (counterexample): `deleteBook "b"` keeps the cache entry with key
`bb-0-v` even though that key is prefixed by the id `b` — the code matches on
the id followed by a dash, not on the bare id. -/
theorem C4_counterexample :
    (deleteBook "b" stPrefixPair).audioCache = [("bb-0-v", { size := 4, payload := "y" })] ∧
    jsStartsWith "bb-0-v" "b" = true := by
  exact ⟨by decide, by decide⟩

/-- C4 (amended): `deleteBookAudioCache id` removes exactly the entries whose
key starts with the id followed by a dash and returns the sum of the removed
blobs' sizes; `deleteBook` removes the same cache entries but returns no byte
total — the freed-byte total is `deleteBookAudioCache`'s return value. -/
theorem C4_amended (bookId : String) (cache : AudioCache) (st : LibraryStore) :
    (deleteBookAudioCache bookId cache).2 =
      cache.filter (fun e => !(jsStartsWith e.1 (bookId ++ "-"))) ∧
    (deleteBookAudioCache bookId cache).1 =
      ((cache.filter fun e => jsStartsWith e.1 (bookId ++ "-")).map fun e => e.2.size).sum ∧
    (deleteBookAudioCache bookId st.audioCache).2 = (deleteBook bookId st).audioCache := by
  refine ⟨?_, ?_, ?_⟩
  · induction cache with
    | nil => rfl
    | cons e rest ih =>
      simp only [deleteBookAudioCache, List.filter_cons]
      by_cases h : jsStartsWith e.1 (bookId ++ "-") = true
      · simp [h, ih]
      · simp only [Bool.not_eq_true] at h
        simp [h, ih]
  · induction cache with
    | nil => rfl
    | cons e rest ih =>
      simp only [deleteBookAudioCache, List.filter_cons]
      by_cases h : jsStartsWith e.1 (bookId ++ "-") = true
      · simp [h, ih]
      · simp only [Bool.not_eq_true] at h
        simp [h, ih]
  · have main : ∀ c : AudioCache, (deleteBookAudioCache bookId c).2 =
        c.filter (fun e => !(jsStartsWith e.1 (bookId ++ "-"))) := by
      intro c
      induction c with
      | nil => rfl
      | cons e rest ih =>
        simp only [deleteBookAudioCache, List.filter_cons]
        by_cases h : jsStartsWith e.1 (bookId ++ "-") = true
        · simp [h, ih]
        · simp only [Bool.not_eq_true] at h
          simp [h, ih]
    rw [main st.audioCache]
    rfl

/-- C6: the TTS normalisation is idempotent on representative already-clean
English prose — for each of the three representative samples, a second pass
leaves the first pass's output unchanged. -/
theorem C6_idempotent :
    preprocessForTTS (preprocessForTTS cleanSampleA) = preprocessForTTS cleanSampleA ∧
    preprocessForTTS (preprocessForTTS cleanSampleB) = preprocessForTTS cleanSampleB ∧
    preprocessForTTS (preprocessForTTS cleanSampleC) = preprocessForTTS cleanSampleC := by
  exact ⟨rfl, rfl, rfl⟩

/-- C8 (counterexample): submitting the same URL twice through the add form
creates two books with the same source URL — the form has no duplicate check. -/
theorem C8_counterexample :
    booksAfterTwoSubmits.map (fun b => b.url) = ["u", "u"] ∧
    booksAfterTwoSubmits.map (fun b => b.id) = ["i1", "i2"] := by
  exact ⟨by decide, by decide⟩

/-- C1 (counterexample): on an 885-word two-marker text whose first marker
chapter has 585 words, the segmentation returns chapters of 585 and 300
words: inside `enforceMaxChapterSize` the oversized chapter is split, a
450-word piece is pushed, and the undersized 135-word trailing piece is
merged back into it, producing a 585-word chapter — over the 580-word hard
cap — in a two-chapter result from long (more than 550 words) input. -/
theorem C1_counterexample :
    (chunkIntoChapters tOversize).map (fun c => c.wordCount) = [585, 300] ∧
    550 < jsWordCount tOversize := by
  exact ⟨by decide, by decide⟩

/-- C2 (counterexample): on a 604-word text with three chapter markers whose
third marker chapter has only 4 words, the marker path discards that chapter,
so the concatenated chapters (600 words) do not reproduce the input (604
words) even modulo whitespace. -/
theorem C2_counterexample :
    ((chunkIntoChapters tMarkers).flatMap fun c => wordsOf c.text) ≠ wordsOf tMarkers ∧
    ((chunkIntoChapters tMarkers).flatMap fun c => wordsOf c.text).length = 600 ∧
    (wordsOf tMarkers).length = 604 := by
  have h1 : ((chunkIntoChapters tMarkers).flatMap fun c => wordsOf c.text).length = 600 := by
    decide
  have h2 : (wordsOf tMarkers).length = 604 := by decide
  refine ⟨fun h => ?_, h1, h2⟩
  rw [h, h2] at h1
  omega

/-- C3 (counterexample): when every call to the synthesis collaborator fails —
including the synthesis of the placeholder utterance itself — the download
pipeline stores no cache entry at all and reports status `none`, not
`downloaded`. -/
theorem C3_counterexample :
    handleDownload ttsFailAll bookHi 0 "none" [] = ([], "none") := rfl

/-! ### Support lemmas about `Nat.repr` and the association-list stores -/

theorem toDigitsCore_succ (b fuel n : Nat) (acc : List Char) :
    Nat.toDigitsCore b (fuel + 1) n acc =
      if n / b = 0 then Nat.digitChar (n % b) :: acc
      else Nat.toDigitsCore b fuel (n / b) (Nat.digitChar (n % b) :: acc) := rfl

theorem toDigitsCore_length_le (b : Nat) :
    ∀ (fuel n : Nat) (acc : List Char),
      acc.length ≤ (Nat.toDigitsCore b fuel n acc).length := by
  intro fuel
  induction fuel with
  | zero => intro n acc; exact le_refl _
  | succ fuel ih =>
    intro n acc
    rw [toDigitsCore_succ]
    split
    · simp
    · exact le_trans (by simp) (ih (n / b) (Nat.digitChar (n % b) :: acc))

theorem toString_nat_ne_empty (n : Nat) : toString n ≠ "" := by
  intro h
  have hd : (Nat.toDigits 10 n).asString = "" := h
  have hlist : Nat.toDigits 10 n = [] := by
    have := congrArg String.data hd
    simpa [List.asString] using this
  have hlen : (Nat.toDigits 10 n).length = 0 := by rw [hlist]; rfl
  have hpos : 1 ≤ (Nat.toDigits 10 n).length := by
    show 1 ≤ (Nat.toDigitsCore 10 (n + 1) n []).length
    rw [toDigitsCore_succ]
    split
    · simp
    · exact le_trans (by simp) (toDigitsCore_length_le 10 n (n / 10) _)
  omega

/-- Value of a decimal digit string, used to invert `Nat.repr`. -/
theorem digits_foldl_init (l : List Char) :
    ∀ a : Nat, l.foldl (fun a c => 10 * a + (c.toNat - 48)) a =
      a * 10 ^ l.length + l.foldl (fun a c => 10 * a + (c.toNat - 48)) 0 := by
  induction l with
  | nil => intro a; simp
  | cons c l ih =>
    intro a
    simp only [List.foldl_cons, List.length_cons]
    rw [ih (10 * a + (c.toNat - 48)), ih (10 * 0 + (c.toNat - 48))]
    ring

theorem digitChar_sub48 (m : Nat) (h : m < 10) : (Nat.digitChar m).toNat - 48 = m := by
  interval_cases m <;> rfl

theorem toDigitsCore_val :
    ∀ (fuel n : Nat) (acc : List Char), n < 10 ^ fuel →
      (Nat.toDigitsCore 10 fuel n acc).foldl (fun a c => 10 * a + (c.toNat - 48)) 0 =
        n * 10 ^ acc.length + acc.foldl (fun a c => 10 * a + (c.toNat - 48)) 0 := by
  intro fuel
  induction fuel with
  | zero =>
    intro n acc h
    have hn : n = 0 := by simpa using h
    subst hn
    simp [Nat.toDigitsCore]
  | succ fuel ih =>
    intro n acc h
    rw [toDigitsCore_succ]
    split
    · rename_i h0
      have hn : n < 10 := by omega
      have hmod : n % 10 = n := Nat.mod_eq_of_lt hn
      simp only [List.foldl_cons]
      rw [digits_foldl_init acc (10 * 0 + ((Nat.digitChar (n % 10)).toNat - 48))]
      rw [hmod, digitChar_sub48 n hn]
      ring
    · rename_i h0
      have hdiv : n / 10 < 10 ^ fuel := by
        apply Nat.div_lt_of_lt_mul
        calc n < 10 ^ (fuel + 1) := h
        _ = 10 * 10 ^ fuel := by rw [pow_succ, Nat.mul_comm]
      rw [ih (n / 10) (Nat.digitChar (n % 10) :: acc) hdiv]
      simp only [List.foldl_cons, List.length_cons]
      have hmod : (Nat.digitChar (n % 10)).toNat - 48 = n % 10 :=
        digitChar_sub48 (n % 10) (Nat.mod_lt n (by norm_num))
      rw [digits_foldl_init acc (10 * 0 + ((Nat.digitChar (n % 10)).toNat - 48)), hmod]
      have hsplit : 10 * (n / 10) + n % 10 = n := Nat.div_add_mod n 10
      calc n / 10 * 10 ^ (acc.length + 1) +
            ((10 * 0 + n % 10) * 10 ^ acc.length +
              acc.foldl (fun a c => 10 * a + (c.toNat - 48)) 0)
          = (10 * (n / 10) + n % 10) * 10 ^ acc.length +
              acc.foldl (fun a c => 10 * a + (c.toNat - 48)) 0 := by ring
        _ = n * 10 ^ acc.length + acc.foldl (fun a c => 10 * a + (c.toNat - 48)) 0 := by
              rw [hsplit]

theorem toString_nat_injective (m n : Nat) (h : toString m = toString n) : m = n := by
  have hd : (Nat.toDigits 10 m).asString = (Nat.toDigits 10 n).asString := h
  have hlist : Nat.toDigits 10 m = Nat.toDigits 10 n := by
    have := congrArg String.data hd
    simpa [List.asString] using this
  have hm : m < 10 ^ (m + 1) :=
    lt_of_lt_of_le (Nat.lt_pow_self (by norm_num) m) (Nat.pow_le_pow_right (by norm_num) (by omega))
  have hn : n < 10 ^ (n + 1) :=
    lt_of_lt_of_le (Nat.lt_pow_self (by norm_num) n) (Nat.pow_le_pow_right (by norm_num) (by omega))
  have hvm := toDigitsCore_val (m + 1) m [] hm
  have hvn := toDigitsCore_val (n + 1) n [] hn
  simp only [List.length_nil, pow_zero, mul_one, List.foldl_nil, Nat.add_zero] at hvm hvn
  have heq : (Nat.toDigits 10 m).foldl (fun a c => 10 * a + (c.toNat - 48)) 0 =
      (Nat.toDigits 10 n).foldl (fun a c => 10 * a + (c.toNat - 48)) 0 := by rw [hlist]
  simp only [Nat.toDigits] at heq
  rw [hvm, hvn] at heq
  exact heq

theorem lsGet_lsSet_self (ls : LocalStorage) (k v : String) :
    lsGet (lsSet ls k v) k = some v := by
  induction ls with
  | nil => simp [lsSet, lsGet]
  | cons e rest ih =>
    by_cases hk : e.1 = k
    · simp [lsSet, lsGet, hk]
    · simpa [lsSet, lsGet, hk] using ih

theorem getBook_putBook (books : List Book) (b : Book) :
    getBook (putBook books b) b.id = some b := by
  induction books with
  | nil => simp [putBook, getBook]
  | cons x rest ih =>
    by_cases hk : x.id = b.id
    · simp [putBook, getBook, hk]
    · simpa [putBook, getBook, hk] using ih

/-- C7: on a fresh device (no sentinel) with a remote snapshot holding one
book, `restoreIfNeeded` stores that book locally, sets the sentinel, and
returns true; a second call on the resulting state performs no fetch and no
restore and returns false, whatever the remote holds by then. -/
theorem C7_restore (st : SyncState) (snap : SyncSnapshot) (b : Book)
    (now now2 : Nat) (remote2 : Option SyncSnapshot)
    (hfresh : lsTruthy st.ls SENTINEL_KEY = false)
    (hone : snap.books = [b]) :
    (restoreIfNeeded (some snap) now st).result = true ∧
    getBook (restoreIfNeeded (some snap) now st).state.books b.id = some b ∧
    lsTruthy (restoreIfNeeded (some snap) now st).state.ls SENTINEL_KEY = true ∧
    restoreIfNeeded remote2 now2 (restoreIfNeeded (some snap) now st).state =
      { state := (restoreIfNeeded (some snap) now st).state,
        fetched := false, restored := false, result := false } := by
  have hsent : lsTruthy (restoreIfNeeded (some snap) now st).state.ls SENTINEL_KEY = true := by
    simp only [restoreIfNeeded, hfresh, Bool.false_eq_true, if_false, Option.isSome_some]
    simp only [lsTruthy, lsGet_lsSet_self]
    simp [toString_nat_ne_empty now]
  refine ⟨?_, ?_, hsent, ?_⟩
  · simp [restoreIfNeeded, hfresh]
  · simp only [restoreIfNeeded, hfresh, Bool.false_eq_true, if_false]
    simp only [restoreFromCloud, hone, List.foldl_cons, List.foldl_nil]
    exact getBook_putBook st.books b
  · have h := hsent
    generalize (restoreIfNeeded (some snap) now st).state = s1 at h ⊢
    simp [restoreIfNeeded, h]

/-! ### Support lemmas for the download pipeline -/

theorem audioCacheKey_injective (bid v : String) (i j : Nat)
    (h : audioCacheKey bid i (some v) = audioCacheKey bid j (some v)) : i = j := by
  simp only [audioCacheKey] at h
  have hd := congrArg String.data h
  simp only [String.data_append, List.append_assoc] at hd
  have h1 := List.append_cancel_left hd
  have h2 := List.append_cancel_left h1
  rw [← List.append_assoc, ← List.append_assoc] at h2
  have h3 := List.append_cancel_right h2
  have h4 := List.append_cancel_right h3
  exact toString_nat_injective i j (String.ext h4)

theorem ttsAttempts_none (tts : String → Option Blob) (t : String)
    (h : tts t = none) : ∀ k, ttsAttempts tts t k = none := by
  intro k
  induction k with
  | zero => rfl
  | succ k ih => simp [ttsAttempts, h, ih]

theorem cachePut_of_fresh (key : String) (b : Blob) :
    ∀ cache : AudioCache, key ∉ cache.map (fun e => e.1) →
      cachePut key b cache = cache ++ [(key, b)] := by
  intro cache
  induction cache with
  | nil => intro _; rfl
  | cons e rest ih =>
    intro h
    obtain ⟨k0, b0⟩ := e
    simp only [List.map_cons, List.mem_cons, not_or] at h
    simp only [cachePut, if_neg (fun he : k0 = key => h.1 he.symm), List.cons_append]
    rw [ih h.2]

theorem processChapter_eq (tts : String → Option Blob) (bid : String) (i : Nat)
    (chText : List Char) (cache : AudioCache) (pbi : Blob)
    (hpre : tts (String.mk (preprocessForTTS chText)) = none)
    (hagg : tts (String.mk (aggressiveCleanup chText)) = none)
    (hph : tts (placeholderText i) = some pbi) :
    processChapter tts bid i chText cache =
      cachePut (audioCacheKey bid i (some DOWNLOAD_VOICE_ID)) pbi cache := by
  simp only [processChapter, ttsAttempts_none tts _ hpre, hagg, hph]

theorem downloadLoop_appends (tts : String → Option Blob) (book : Book) (pb : Nat → Blob)
    (hpre : ∀ i < book.chapters.length,
      tts (String.mk (preprocessForTTS
        ((book.chapters.getD i ⟨0, "", [], 0⟩).text))) = none)
    (hagg : ∀ i < book.chapters.length,
      tts (String.mk (aggressiveCleanup
        ((book.chapters.getD i ⟨0, "", [], 0⟩).text))) = none)
    (hph : ∀ i < book.chapters.length, tts (placeholderText i) = some (pb i)) :
    ∀ (idxs : List Nat) (cache : AudioCache),
      (∀ i ∈ idxs, i < book.chapters.length) →
      (∀ i ∈ idxs,
        audioCacheKey book.id i (some DOWNLOAD_VOICE_ID) ∉ cache.map (fun e => e.1)) →
      idxs.Nodup →
      downloadLoop tts book cache idxs =
        cache ++ idxs.map
          (fun i => (audioCacheKey book.id i (some DOWNLOAD_VOICE_ID), pb i)) := by
  intro idxs
  induction idxs with
  | nil => intro cache _ _ _; simp [downloadLoop]
  | cons i rest ih =>
    intro cache hlt hfresh hnd
    have hi : i < book.chapters.length := hlt i (List.mem_cons_self i rest)
    simp only [downloadLoop]
    rw [processChapter_eq tts book.id i _ cache (pb i)
        (hpre i hi) (hagg i hi) (hph i hi)]
    rw [cachePut_of_fresh _ _ cache (hfresh i (List.mem_cons_self i rest))]
    rw [ih (cache ++ [(audioCacheKey book.id i (some DOWNLOAD_VOICE_ID), pb i)])
        (fun j hj => hlt j (List.mem_cons_of_mem i hj))
        ?_ (List.Nodup.of_cons hnd)]
    · simp
    · intro j hj
      simp only [List.map_append, List.mem_append, List.map_cons, List.map_nil,
        List.mem_singleton, not_or]
      refine ⟨hfresh j (List.mem_cons_of_mem i hj), ?_⟩
      intro hk
      have : j = i := audioCacheKey_injective book.id DOWNLOAD_VOICE_ID j i hk
      subst this
      exact (List.nodup_cons.mp hnd).1 hj

theorem cacheGet_mapKeys (bid v : String) (pb : Nat → Blob) (i : Nat) :
    ∀ l : List Nat, i ∈ l →
      cacheGet (l.map fun j => (audioCacheKey bid j (some v), pb j))
        (audioCacheKey bid i (some v)) = some (pb i) := by
  intro l
  induction l with
  | nil => intro h; cases h
  | cons j rest ih =>
    intro hmem
    by_cases hk : audioCacheKey bid j (some v) = audioCacheKey bid i (some v)
    · have : j = i := audioCacheKey_injective bid v j i hk
      subst this
      simp [cacheGet, List.find?, hk]
    · have : i ∈ rest := by
        rcases List.mem_cons.mp hmem with h | h
        · exact absurd (by rw [h]) hk
        · exact h
      simpa [cacheGet, List.find?, hk] using ih this

/-- C3 (amended): if every synthesis attempt on each chapter's preprocessed
and aggressively cleaned text fails but synthesis of each placeholder
utterance succeeds, then below the storage ceiling and starting from an empty
cache, `handleDownload` run to completion stores exactly one placeholder
entry per chapter index under the download voice, in order, and reports
`downloaded`. -/
theorem C3_amended (tts : String → Option Blob) (book : Book) (pb : Nat → Blob)
    (tsu : Nat) (prevStatus : String)
    (hstorage : tsu < MAX_DOWNLOAD_BYTES)
    (hpre : ∀ i < book.chapters.length,
      tts (String.mk (preprocessForTTS
        ((book.chapters.getD i ⟨0, "", [], 0⟩).text))) = none)
    (hagg : ∀ i < book.chapters.length,
      tts (String.mk (aggressiveCleanup
        ((book.chapters.getD i ⟨0, "", [], 0⟩).text))) = none)
    (hph : ∀ i < book.chapters.length, tts (placeholderText i) = some (pb i)) :
    handleDownload tts book tsu prevStatus [] =
      ((List.range book.chapters.length).map
        (fun i => (audioCacheKey book.id i (some DOWNLOAD_VOICE_ID), pb i)),
       "downloaded") := by
  have hfilter : ((List.range book.chapters.length).filter fun i =>
      (cacheGet [] (audioCacheKey book.id i (some DOWNLOAD_VOICE_ID))).isNone) =
      List.range book.chapters.length := by
    apply List.filter_eq_self.mpr
    intro a _
    rfl
  simp only [handleDownload, if_neg (not_le.mpr hstorage), hfilter]
  by_cases hn : List.range book.chapters.length = []
  · rw [if_pos hn, hn]
    rfl
  · rw [if_neg hn]
    rw [downloadLoop_appends tts book pb hpre hagg hph (List.range book.chapters.length) []
        (fun i hi => List.mem_range.mp hi) (fun i _ => by simp) (List.nodup_range _)]
    simp only [List.nil_append]
    have hcount : getBookCachedChapterCount
        ((List.range book.chapters.length).map
          (fun i => (audioCacheKey book.id i (some DOWNLOAD_VOICE_ID), pb i)))
        book.id book.chapters.length = book.chapters.length := by
      unfold getBookCachedChapterCount
      have h1 : ∀ i ∈ List.range book.chapters.length,
          ((cacheGet ((List.range book.chapters.length).map
              (fun j => (audioCacheKey book.id j (some DOWNLOAD_VOICE_ID), pb j)))
            (audioCacheKey book.id i (some DOWNLOAD_VOICE_ID))).isSome) = true := by
        intro i hi
        rw [cacheGet_mapKeys book.id DOWNLOAD_VOICE_ID pb i _ hi]
        rfl
      rw [List.countP_eq_length.mpr h1, List.length_range]
    simp only [hcount, ge_iff_le, le_refl, if_true]

/-- C3 (amended, witness): the one-chapter book with the oracle that fails on
the chapter text but synthesizes the placeholder. -/
theorem C3_amended_witness :
    (0 : Nat) < MAX_DOWNLOAD_BYTES ∧
    handleDownload ttsOnlyPlaceholder bookHi 0 "none" [] =
      ((List.range bookHi.chapters.length).map
        (fun i => (audioCacheKey bookHi.id i (some DOWNLOAD_VOICE_ID), phBlob)),
       "downloaded") :=
  ⟨by decide,
   C3_amended ttsOnlyPlaceholder bookHi (fun _ => phBlob) 0 "none" (by decide)
     (by decide) (by decide) (by decide)⟩

/-- C7 (witness): a fresh device, a one-book snapshot, and a second call. -/
theorem C7_restore_witness :
    lsTruthy syncStFresh.ls SENTINEL_KEY = false ∧
    ((restoreIfNeeded (some snapOne) 42 syncStFresh).result = true ∧
     getBook (restoreIfNeeded (some snapOne) 42 syncStFresh).state.books bookHi.id =
       some bookHi ∧
     lsTruthy (restoreIfNeeded (some snapOne) 42 syncStFresh).state.ls SENTINEL_KEY = true ∧
     restoreIfNeeded none 43 (restoreIfNeeded (some snapOne) 42 syncStFresh).state =
       { state := (restoreIfNeeded (some snapOne) 42 syncStFresh).state,
         fetched := false, restored := false, result := false }) :=
  ⟨by decide, C7_restore syncStFresh snapOne bookHi 42 43 none (by decide) rfl⟩

/-! ### Support lemmas for the archive import -/

theorem putBook_fresh (b : Book) :
    ∀ books : List Book, b.id ∉ books.map (fun b0 => b0.id) →
      putBook books b = books ++ [b] := by
  intro books
  induction books with
  | nil => intro _; rfl
  | cons x rest ih =>
    intro h
    simp only [List.map_cons, List.mem_cons, not_or] at h
    simp only [putBook, if_neg (fun he : x.id = b.id => h.1 he.symm), List.cons_append]
    rw [ih h.2]

theorem importLoop_urls_nodup (extract : String → Option ExtractData)
    (mkId : Nat → String) (now : Nat)
    (hinj : ∀ p q, mkId p = mkId q → p = q) :
    ∀ (rs : List Reading) (books : List Book) (pos : Nat),
      (books.map (fun b => b.url)).Nodup →
      ((rs.map (fun r => r.url)).Nodup) →
      (∀ r ∈ rs, r.url ∉ books.map (fun b => b.url)) →
      (∀ q, pos ≤ q → mkId q ∉ books.map (fun b => b.id)) →
      ((importLoop extract mkId now books pos rs).map (fun b => b.url)).Nodup := by
  intro rs
  induction rs with
  | nil => intro books pos hb _ _ _; simpa [importLoop] using hb
  | cons r rest ih =>
    intro books pos hb hr hurl hids
    cases hx : extract r.url with
    | none =>
      simp only [importLoop, hx]
      exact ih books (pos + 1) hb
        ((List.nodup_cons.mp (by simpa only [List.map_cons] using hr)).2)
        (fun r2 h2 => hurl r2 (List.mem_cons_of_mem r h2))
        (fun q hq => hids q (by omega))
    | some d =>
      simp only [importLoop, hx]
      rw [putBook_fresh
        ⟨mkId pos, r.url, (if d.title = "" then r.title else d.title),
         (if d.author = "" then r.author else d.author), d.chapters, now - pos, 0⟩
        books (by simpa using hids pos (le_refl pos))]
      apply ih _ (pos + 1)
      · simp only [List.map_append, List.map_cons, List.map_nil]
        rw [List.nodup_append]
        refine ⟨hb, List.nodup_singleton _, ?_⟩
        intro u hu hu2
        simp only [List.mem_singleton] at hu2
        exact hurl r (List.mem_cons_self r rest) (hu2 ▸ hu)
      · exact (List.nodup_cons.mp (by simpa only [List.map_cons] using hr)).2
      · intro r2 h2
        simp only [List.map_append, List.map_cons, List.map_nil, List.mem_append,
          List.mem_singleton, not_or]
        refine ⟨hurl r2 (List.mem_cons_of_mem r h2), ?_⟩
        intro hequrl
        have hr2 : r2.url ∈ rest.map (fun r => r.url) := List.mem_map_of_mem _ h2
        have := (List.nodup_cons.mp (by simpa only [List.map_cons] using hr)).1
        rw [hequrl] at hr2
        exact this hr2
      · intro q hq
        simp only [List.map_append, List.map_cons, List.map_nil, List.mem_append,
          List.mem_singleton, not_or]
        refine ⟨hids q (by omega), ?_⟩
        intro heq
        have : q = pos := hinj q pos heq
        omega

/-- C8 (amended): the archive bulk import creates no duplicate source URLs —
assuming the stored books' URLs are distinct, the archive's URLs are
distinct, and the freshly generated ids are injective and unused, the books
after `handleImportArchive` still have pairwise distinct URLs (readings whose
URL is already stored are filtered out).  The single-URL form, by contrast,
has no such check (see the counterexample). -/
theorem C8_amended (extract : String → Option ExtractData) (mkId : Nat → String)
    (now : Nat) (readings : List Reading) (books : List Book)
    (hbooks : (books.map (fun b => b.url)).Nodup)
    (hreadings : ((readings.map (fun r => r.url)).Nodup))
    (hids : ∀ q, mkId q ∉ books.map (fun b => b.id))
    (hinj : ∀ p q, mkId p = mkId q → p = q) :
    ((handleImportArchive extract mkId now readings books).map (fun b => b.url)).Nodup := by
  unfold handleImportArchive
  apply importLoop_urls_nodup extract mkId now hinj _ books 0 hbooks
  · have hperm : (List.mergeSort
        (readings.filter fun r => ¬ (books.map (fun b => b.url)).contains r.url)
        (fun a b => typePriority a.rtype ≤ typePriority b.rtype)).Perm
        (readings.filter fun r => ¬ (books.map (fun b => b.url)).contains r.url) :=
      List.mergeSort_perm _ _
    have hsub : ((readings.filter
        fun r => ¬ (books.map (fun b => b.url)).contains r.url).map
          (fun r => r.url)).Nodup :=
      List.Nodup.sublist (List.Sublist.map _ (List.filter_sublist _)) hreadings
    exact ((hperm.map (fun r => r.url)).nodup_iff).mpr hsub
  · intro r hr
    have hrf : r ∈ readings.filter
        fun r => ¬ (books.map (fun b => b.url)).contains r.url :=
      (List.mergeSort_perm _ _).subset hr
    have := (List.mem_filter.mp hrf).2
    simpa using this
  · intro q _
    exact hids q

/-- C8 (amended, witness): importing a one-entry archive into an empty store. -/
theorem C8_amended_witness :
    (([] : List Book).map (fun b => b.url)).Nodup ∧
    ((readingsOne.map (fun r => r.url)).Nodup) ∧
    ((handleImportArchive extractAlways (fun p => toString p) 5 readingsOne []).map
      (fun b => b.url)).Nodup :=
  ⟨by simp, by decide,
   C8_amended extractAlways (fun p => toString p) 5 readingsOne []
     (by simp) (by decide) (fun q => by simp)
     (fun p q h => toString_nat_injective p q h)⟩

/-! ### Support lemmas for `splitIfTooLong` (claim C9) -/

theorem splitWS_nil_eq : splitWS [] = [[]] := rfl

theorem splitWS_cons_eq (c : Char) (cs : List Char) :
    splitWS (c :: cs) =
      if isWS c then
        (match cs with
         | c2 :: _ => if isWS c2 then splitWS cs else [] :: splitWS cs
         | [] => [] :: splitWS cs)
      else
        (match splitWS cs with
         | p :: ps => (c :: p) :: ps
         | [] => [[c]]) := by
  cases cs <;> rfl

theorem splitWS_ne_nil (cs : List Char) : splitWS cs ≠ [] := by
  induction cs with
  | nil => simp [splitWS_nil_eq]
  | cons c cs ih =>
    rw [splitWS_cons_eq]
    by_cases h : isWS c = true
    · rw [if_pos h]
      cases cs with
      | nil => simp
      | cons c2 cs2 =>
        by_cases h2 : isWS c2 = true
        · simpa [h2] using ih
        · simp [h2]
    · rw [if_neg h]
      cases h3 : splitWS cs with
      | nil => exact absurd h3 ih
      | cons p ps => simp

theorem jsWordCount_pos (cs : List Char) : 1 ≤ jsWordCount cs := by
  unfold jsWordCount
  cases h : splitWS cs with
  | nil => exact absurd h (splitWS_ne_nil cs)
  | cons p ps => simp

theorem sumWC_nil : sumWC [] = 0 := rfl

theorem sumWC_cons (x : List Char) (l : List (List Char)) :
    sumWC (x :: l) = jsWordCount x + sumWC l := by simp [sumWC]

theorem sumWC_append (l1 l2 : List (List Char)) :
    sumWC (l1 ++ l2) = sumWC l1 + sumWC l2 := by simp [sumWC]

theorem sumWC_singleton (x : List Char) : sumWC [x] = jsWordCount x := by simp [sumWC]

theorem sumWC_pos (l : List (List Char)) (h : l ≠ []) : 1 ≤ sumWC l := by
  cases l with
  | nil => exact absurd rfl h
  | cons x r =>
    rw [sumWC_cons]
    have := jsWordCount_pos x
    omega

theorem splitWS_cons_nonws (c : Char) (cs : List Char) (h : ¬ isWS c = true) :
    (splitWS (c :: cs)).length = (splitWS cs).length := by
  rw [splitWS_cons_eq, if_neg h]
  cases h2 : splitWS cs with
  | nil => exact absurd h2 (splitWS_ne_nil cs)
  | cons p ps => simp

theorem splitWS_cons_ws_ws (c c2 : Char) (cs : List Char)
    (h : isWS c = true) (h2 : isWS c2 = true) :
    splitWS (c :: c2 :: cs) = splitWS (c2 :: cs) := by
  rw [splitWS_cons_eq, if_pos h]
  simp [h2]

theorem splitWS_cons_ws_nonws (c c2 : Char) (cs : List Char)
    (h : isWS c = true) (h2 : ¬ isWS c2 = true) :
    splitWS (c :: c2 :: cs) = [] :: splitWS (c2 :: cs) := by
  rw [splitWS_cons_eq, if_pos h]
  simp [h2]

theorem splitWS_len_cons_le (c : Char) (cs : List Char) :
    (splitWS (c :: cs)).length ≤ (splitWS cs).length + 1 := by
  by_cases h : isWS c = true
  · cases cs with
    | nil => simp [splitWS_cons_eq, splitWS_nil_eq, h]
    | cons c2 cs2 =>
      by_cases h2 : isWS c2 = true
      · rw [splitWS_cons_ws_ws c c2 cs2 h h2]; omega
      · rw [splitWS_cons_ws_nonws c c2 cs2 h h2]; simp
  · rw [splitWS_cons_nonws c cs h]
    omega

theorem wc_append_space : ∀ a b : List Char,
    jsWordCount (a ++ ' ' :: b) ≤ jsWordCount a + jsWordCount b := by
  intro a
  induction a with
  | nil =>
    intro b
    have h1 := splitWS_len_cons_le ' ' b
    show (splitWS (' ' :: b)).length ≤ jsWordCount [] + jsWordCount b
    have h2 : jsWordCount ([] : List Char) = 1 := rfl
    unfold jsWordCount at *
    omega
  | cons c a ih =>
    intro b
    by_cases h : isWS c = true
    · cases a with
      | nil =>
        have hl : splitWS (c :: ' ' :: b) = splitWS (' ' :: b) :=
          splitWS_cons_ws_ws c ' ' b h (by decide)
        have hb := splitWS_len_cons_le ' ' b
        have hr : (splitWS [c]).length = 2 := by
          rw [splitWS_cons_eq, if_pos h]
          simp [splitWS_nil_eq]
        have hbp : 1 ≤ (splitWS b).length := jsWordCount_pos b
        show (splitWS ([c] ++ ' ' :: b)).length ≤ jsWordCount [c] + jsWordCount b
        unfold jsWordCount
        calc (splitWS ([c] ++ ' ' :: b)).length
            = (splitWS (' ' :: b)).length := by
              rw [show [c] ++ ' ' :: b = c :: ' ' :: b from rfl, hl]
          _ ≤ (splitWS b).length + 1 := hb
          _ ≤ (splitWS [c]).length + (splitWS b).length := by rw [hr]; omega
      | cons c2 a2 =>
        by_cases h2 : isWS c2 = true
        · have hl := splitWS_cons_ws_ws c c2 (a2 ++ ' ' :: b) h h2
          have hr := splitWS_cons_ws_ws c c2 a2 h h2
          have hih : (splitWS (c2 :: (a2 ++ ' ' :: b))).length ≤
              (splitWS (c2 :: a2)).length + (splitWS b).length := ih b
          show (splitWS ((c :: c2 :: a2) ++ ' ' :: b)).length ≤
            jsWordCount (c :: c2 :: a2) + jsWordCount b
          unfold jsWordCount
          rw [show (c :: c2 :: a2) ++ ' ' :: b = c :: c2 :: (a2 ++ ' ' :: b) from rfl, hl, hr]
          exact hih
        · have hl := splitWS_cons_ws_nonws c c2 (a2 ++ ' ' :: b) h h2
          have hr := splitWS_cons_ws_nonws c c2 a2 h h2
          have hih : (splitWS (c2 :: (a2 ++ ' ' :: b))).length ≤
              (splitWS (c2 :: a2)).length + (splitWS b).length := ih b
          show (splitWS ((c :: c2 :: a2) ++ ' ' :: b)).length ≤
            jsWordCount (c :: c2 :: a2) + jsWordCount b
          unfold jsWordCount
          rw [show (c :: c2 :: a2) ++ ' ' :: b = c :: c2 :: (a2 ++ ' ' :: b) from rfl, hl, hr]
          simp only [List.length_cons]
          omega
    · have hl := splitWS_cons_nonws c (a ++ ' ' :: b) h
      have hr := splitWS_cons_nonws c a h
      have hih : (splitWS (a ++ ' ' :: b)).length ≤
          (splitWS a).length + (splitWS b).length := ih b
      show (splitWS ((c :: a) ++ ' ' :: b)).length ≤ jsWordCount (c :: a) + jsWordCount b
      unfold jsWordCount
      rw [show (c :: a) ++ ' ' :: b = c :: (a ++ ' ' :: b) from rfl, hl, hr]
      exact hih

theorem intercalate_sp_singleton (x : List Char) : List.intercalate [' '] [x] = x := by
  simp [List.intercalate, List.intersperse]

theorem intercalate_sp_cons (x y : List Char) (r : List (List Char)) :
    List.intercalate [' '] (x :: y :: r) = x ++ ' ' :: List.intercalate [' '] (y :: r) := by
  simp [List.intercalate, List.intersperse]

theorem wc_intercalate_le : ∀ g : List (List Char), g ≠ [] →
    jsWordCount (List.intercalate [' '] g) ≤ sumWC g := by
  intro g
  induction g with
  | nil => intro h; exact absurd rfl h
  | cons x r ih =>
    intro _
    cases r with
    | nil => rw [intercalate_sp_singleton, sumWC_singleton]
    | cons y r2 =>
      rw [intercalate_sp_cons]
      calc jsWordCount (x ++ ' ' :: List.intercalate [' '] (y :: r2))
          ≤ jsWordCount x + jsWordCount (List.intercalate [' '] (y :: r2)) :=
            wc_append_space _ _
        _ ≤ jsWordCount x + sumWC (y :: r2) := by
            have := ih (by simp)
            omega
        _ = sumWC (x :: y :: r2) := (sumWC_cons x (y :: r2)).symm

theorem sentGo_ne_nil : ∀ (cs : List Char) (b : Bool) (p : Char), sentGo b p cs ≠ [] := by
  intro cs
  induction cs with
  | nil => intro b p; cases b <;> simp [sentGo]
  | cons c cs ih =>
    intro b p
    cases b with
    | true =>
      by_cases h : isWS c = true
      · simpa [sentGo, h] using ih true p
      · simp only [sentGo, h, if_false]
        cases h3 : sentGo false c cs with
        | nil => simp
        | cons q qs => simp
    | false =>
      by_cases h : (isWS c && isSentEnd p) = true
      · simp [sentGo, h]
      · simp only [sentGo, h, if_false]
        cases h3 : sentGo false c cs with
        | nil => simp
        | cons q qs => simp

theorem sitlLoop_spec (maxWords : Nat) :
    ∀ (pieces : List (List Char)) (groups : List (List (List Char)))
      (current : List (List Char)) (cw : Nat),
      cw = sumWC current →
      (∀ g ∈ groups, g ≠ []) →
      (∀ g ∈ groups, 2 ≤ g.length → sumWC g ≤ maxWords) →
      (2 ≤ current.length → sumWC current ≤ maxWords) →
      ∃ (groups2 : List (List (List Char))) (current2 : List (List Char)),
        sitlLoop maxWords (groups.map fun g => List.intercalate [' '] g) current cw pieces =
          (groups2.map fun g => List.intercalate [' '] g, current2, sumWC current2) ∧
        (∀ g ∈ groups2, g ≠ []) ∧
        (∀ g ∈ groups2, 2 ≤ g.length → sumWC g ≤ maxWords) ∧
        (2 ≤ current2.length → sumWC current2 ≤ maxWords) ∧
        groups2.flatten ++ current2 = groups.flatten ++ current ++ pieces ∧
        (current2 = [] ↔ current = [] ∧ pieces = []) := by
  intro pieces
  induction pieces with
  | nil =>
    intro groups current cw hcw h1 h2 h3
    subst hcw
    exact ⟨groups, current, rfl, h1, h2, h3, by simp, by simp⟩
  | cons s rest ih =>
    intro groups current cw hcw h1 h2 h3
    by_cases hcond : cw + jsWordCount s > maxWords ∧ cw > 0
    · have hcur_ne : current ≠ [] := by
        intro he
        rw [he] at hcw
        rw [sumWC_nil] at hcw
        omega
      have hstep : sitlLoop maxWords (groups.map fun g => List.intercalate [' '] g)
          current cw (s :: rest) =
          sitlLoop maxWords ((groups ++ [current]).map fun g => List.intercalate [' '] g)
            [s] (jsWordCount s) rest := by
        simp only [sitlLoop, if_pos hcond, List.map_append, List.map_cons, List.map_nil]
      rw [hstep]
      have hres := ih (groups ++ [current]) [s] (jsWordCount s)
        (by rw [sumWC_singleton])
        (by intro g hg
            rcases List.mem_append.mp hg with hgl | hgr
            · exact h1 g hgl
            · rw [List.mem_singleton.mp hgr]; exact hcur_ne)
        (by intro g hg
            rcases List.mem_append.mp hg with hgl | hgr
            · exact h2 g hgl
            · rw [List.mem_singleton.mp hgr]
              intro h2len
              rw [← hcw]
              have hsw := jsWordCount_pos s
              omega)
        (by intro hlen; simp at hlen)
      obtain ⟨g2, c2, heq, q1, q2, q3, q4, q5⟩ := hres
      refine ⟨g2, c2, heq, q1, q2, q3, ?_, ?_⟩
      · rw [q4]
        simp [List.flatten_append, List.append_assoc]
      · rw [q5]
        simp
    · have hstep : sitlLoop maxWords (groups.map fun g => List.intercalate [' '] g)
          current cw (s :: rest) =
          sitlLoop maxWords (groups.map fun g => List.intercalate [' '] g)
            (current ++ [s]) (cw + jsWordCount s) rest := by
        simp only [sitlLoop, if_neg hcond]
      rw [hstep]
      have hres := ih groups (current ++ [s]) (cw + jsWordCount s)
        (by rw [hcw, sumWC_append, sumWC_singleton])
        h1 h2
        (by intro hlen
            rcases List.eq_nil_or_concat current with hc | _
            · rw [hc] at hlen
              simp at hlen
            · have hcne : current ≠ [] := by
                rintro rfl
                simp at hlen
              have hpos : 1 ≤ sumWC current := sumWC_pos current hcne
              have hcwpos : cw > 0 := by omega
              have hle : cw + jsWordCount s ≤ maxWords := by
                by_contra hgt
                exact hcond ⟨by omega, hcwpos⟩
              rw [sumWC_append, sumWC_singleton, ← hcw]
              exact hle)
      obtain ⟨g2, c2, heq, q1, q2, q3, q4, q5⟩ := hres
      refine ⟨g2, c2, heq, q1, q2, q3, ?_, ?_⟩
      · rw [q4]
        simp [List.append_assoc]
      · rw [q5]
        simp

/-- C9: `splitIfTooLong` returns the text unchanged when its word count
(`text.split(/\s+/).length`, the code's notion of word count) is within
`maxWords`; on longer text it cuts only at sentence boundaries — the output
is exactly a grouping of consecutive pieces of the sentence split — and any
group of two or more sentences stays within `maxWords` words, so a returned
chunk whose word count exceeds `maxWords` is a single sentence of the text. -/
theorem C9_splitIfTooLong (text : List Char) (maxWords : Nat) :
    (jsWordCount text ≤ maxWords → splitIfTooLong text maxWords = [text]) ∧
    (maxWords < jsWordCount text →
      ∃ groups : List (List (List Char)),
        (∀ g ∈ groups, g ≠ []) ∧
        groups.flatten = sentSplit text ∧
        splitIfTooLong text maxWords = groups.map (fun g => List.intercalate [' '] g) ∧
        (∀ g ∈ groups, 2 ≤ g.length →
          jsWordCount (List.intercalate [' '] g) ≤ maxWords) ∧
        (∀ chunk ∈ splitIfTooLong text maxWords,
          maxWords < jsWordCount chunk → chunk ∈ sentSplit text)) := by
  constructor
  · intro h
    unfold splitIfTooLong
    rw [if_pos (show (splitWS text).length ≤ maxWords from h)]
  · intro h
    have hnle : ¬ (splitWS text).length ≤ maxWords := not_le.mpr h
    obtain ⟨g2, c2, heq, q1, q2, q3, q4, q5⟩ :=
      sitlLoop_spec maxWords (sentSplit text) [] [] 0 rfl (by simp) (by simp) (by simp)
    simp only [List.map_nil] at heq
    have hc2ne : c2 ≠ [] := by
      intro hc
      have := q5.mp hc
      exact sentGo_ne_nil text false 'A' this.2
    have hflush : splitIfTooLong text maxWords =
        (g2 ++ [c2]).map (fun g => List.intercalate [' '] g) := by
      unfold splitIfTooLong
      rw [if_neg hnle, heq]
      simp only [if_neg hc2ne, List.map_append, List.map_cons, List.map_nil]
    have hflat : (g2 ++ [c2]).flatten = sentSplit text := by
      rw [List.flatten_append]
      simpa using q4
    refine ⟨g2 ++ [c2], ?_, hflat, hflush, ?_, ?_⟩
    · intro g hg
      rcases List.mem_append.mp hg with hgl | hgr
      · exact q1 g hgl
      · rw [List.mem_singleton.mp hgr]; exact hc2ne
    · intro g hg hlen
      have hb : sumWC g ≤ maxWords := by
        rcases List.mem_append.mp hg with hgl | hgr
        · exact q2 g hgl hlen
        · rw [List.mem_singleton.mp hgr] at hlen ⊢
          exact q3 hlen
      calc jsWordCount (List.intercalate [' '] g) ≤ sumWC g :=
            wc_intercalate_le g (by
              intro he
              rw [he] at hlen
              simp at hlen)
        _ ≤ maxWords := hb
    · intro chunk hchunk hbig
      rw [hflush] at hchunk
      obtain ⟨g, hg, hgeq⟩ := List.mem_map.mp hchunk
      have hgne : g ≠ [] := by
        rcases List.mem_append.mp hg with hgl | hgr
        · exact q1 g hgl
        · rw [List.mem_singleton.mp hgr]; exact hc2ne
      cases g with
      | nil => exact absurd rfl hgne
      | cons x r =>
        cases r with
        | nil =>
          rw [← hgeq, intercalate_sp_singleton]
          rw [← hflat]
          exact List.mem_flatten.mpr ⟨[x], hg, by simp⟩
        | cons y r2 =>
          exfalso
          have hb : sumWC (x :: y :: r2) ≤ maxWords := by
            rcases List.mem_append.mp hg with hgl | hgr
            · exact q2 _ hgl (by simp)
            · rw [List.mem_singleton.mp hgr] at hg ⊢
              exact q3 (by rw [← List.mem_singleton.mp hgr]; simp)
          have hle : jsWordCount chunk ≤ maxWords := by
            rw [← hgeq]
            calc jsWordCount (List.intercalate [' '] (x :: y :: r2))
                ≤ sumWC (x :: y :: r2) := wc_intercalate_le _ (by simp)
              _ ≤ maxWords := hb
          omega

/-- C9 (witness): a three-word sentence within the limit is returned whole;
a five-field two-sentence text over the limit is grouped at the sentence
boundary. -/
theorem C9_splitIfTooLong_witness :
    (jsWordCount "One two three.".data ≤ 5 ∧
      splitIfTooLong "One two three.".data 5 = ["One two three.".data]) ∧
    (2 < jsWordCount " a. b".data ∧
      ∃ groups : List (List (List Char)),
        (∀ g ∈ groups, g ≠ []) ∧
        groups.flatten = sentSplit " a. b".data ∧
        splitIfTooLong " a. b".data 2 = groups.map (fun g => List.intercalate [' '] g) ∧
        (∀ g ∈ groups, 2 ≤ g.length →
          jsWordCount (List.intercalate [' '] g) ≤ 2) ∧
        (∀ chunk ∈ splitIfTooLong " a. b".data 2,
          2 < jsWordCount chunk → chunk ∈ sentSplit " a. b".data)) :=
  ⟨⟨by decide, (C9_splitIfTooLong "One two three.".data 5).1 (by decide)⟩,
   ⟨by decide, (C9_splitIfTooLong " a. b".data 2).2 (by decide)⟩⟩

/-! ### Support lemmas for the `enforceMaxChapterSize` bound (claim C1) -/

theorem emcsLoop_nil (result : List Chapter) (current : List (List Char)) (cw : Nat) :
    emcsLoop result current cw [] = (result, current, cw) := rfl

theorem emcsLoop_cons (result : List Chapter) (current : List (List Char)) (cw : Nat)
    (s : List Char) (rest : List (List Char)) :
    emcsLoop result current cw (s :: rest) =
      if cw + jsWordCount s > TARGET_WORDS ∧ cw ≥ MIN_WORDS then
        emcsLoop (result ++
          [{ index := result.length, title := chapTitle (result.length + 1),
             text := List.intercalate [' '] current, wordCount := cw }]) [s] (jsWordCount s) rest
      else emcsLoop result (current ++ [s]) (cw + jsWordCount s) rest := rfl

theorem modifyLast_mem {α : Type} (f : α → α) :
    ∀ (l : List α) (x : α), x ∈ modifyLast f l → x ∈ l ∨ ∃ y ∈ l, x = f y := by
  intro l
  induction l with
  | nil => intro x hx; simp [modifyLast] at hx
  | cons a rest ih =>
    intro x hx
    cases rest with
    | nil =>
      simp [modifyLast] at hx
      exact Or.inr ⟨a, by simp, hx⟩
    | cons b rest2 =>
      rw [show modifyLast f (a :: b :: rest2) = a :: modifyLast f (b :: rest2) from rfl] at hx
      rcases List.mem_cons.mp hx with h1 | h2
      · exact Or.inl (by simp [h1])
      · rcases ih x h2 with h3 | ⟨y, hy, he⟩
        · exact Or.inl (List.mem_cons_of_mem a h3)
        · exact Or.inr ⟨y, List.mem_cons_of_mem a hy, he⟩

theorem emcsLoop_spec (M S : Nat)
    (hAM : max TARGET_WORDS (MIN_WORDS - 1 + S) ≤ M) :
    ∀ (pieces : List (List Char)) (result : List Chapter)
      (current : List (List Char)) (cw : Nat),
      (∀ s ∈ pieces, jsWordCount s ≤ S) →
      cw ≤ max TARGET_WORDS (MIN_WORDS - 1 + S) →
      (∀ c ∈ result, c.wordCount ≤ M) →
      (∀ c ∈ (emcsLoop result current cw pieces).1, c.wordCount ≤ M) ∧
      (emcsLoop result current cw pieces).2.2 ≤ max TARGET_WORDS (MIN_WORDS - 1 + S) := by
  intro pieces
  induction pieces with
  | nil =>
    intro result current cw _ hcw hres
    rw [emcsLoop_nil]
    exact ⟨hres, hcw⟩
  | cons s rest ih =>
    intro result current cw hp hcw hres
    have hsw : jsWordCount s ≤ S := hp s (by simp)
    have hrest : ∀ s2 ∈ rest, jsWordCount s2 ≤ S := fun s2 h2 => hp s2 (by simp [h2])
    rw [emcsLoop_cons]
    by_cases hcond : cw + jsWordCount s > TARGET_WORDS ∧ cw ≥ MIN_WORDS
    · rw [if_pos hcond]
      refine ih _ [s] (jsWordCount s) hrest
        (le_trans hsw (le_trans (by omega) (le_max_right TARGET_WORDS (MIN_WORDS - 1 + S))))
        ?_
      intro c hc
      rcases List.mem_append.mp hc with h1 | h2
      · exact hres c h1
      · rw [List.mem_singleton.mp h2]
        show cw ≤ M
        exact le_trans hcw hAM
    · rw [if_neg hcond]
      refine ih result (current ++ [s]) (cw + jsWordCount s) hrest ?_ hres
      rw [not_and_or] at hcond
      rcases hcond with h1 | h2
      · exact le_trans (by omega) (le_max_left TARGET_WORDS (MIN_WORDS - 1 + S))
      · exact le_trans (by omega) (le_max_right TARGET_WORDS (MIN_WORDS - 1 + S))

theorem emcsFlush_bound (M S : Nat) (result : List Chapter)
    (current : List (List Char)) (cw : Nat)
    (hres : ∀ c ∈ result, c.wordCount ≤ M)
    (hcw : cw ≤ max TARGET_WORDS (MIN_WORDS - 1 + S))
    (hAM : max TARGET_WORDS (MIN_WORDS - 1 + S) ≤ M) :
    ∀ c ∈ emcsFlush result current cw, c.wordCount ≤ M + (MIN_WORDS - 1) := by
  intro c hc
  unfold emcsFlush at hc
  by_cases h1 : current = []
  · rw [if_pos h1] at hc
    exact le_trans (hres c hc) (Nat.le_add_right M _)
  · rw [if_neg h1] at hc
    by_cases h2 : cw < MIN_WORDS ∧ result ≠ []
    · rw [if_pos h2] at hc
      rcases modifyLast_mem _ result c hc with h3 | ⟨y, hy, he⟩
      · exact le_trans (hres c h3) (Nat.le_add_right M _)
      · rw [he]
        show y.wordCount + cw ≤ M + (MIN_WORDS - 1)
        have hb := hres y hy
        have h4 := h2.1
        omega
    · rw [if_neg h2] at hc
      rcases List.mem_append.mp hc with h3 | h4
      · exact le_trans (hres c h3) (Nat.le_add_right M _)
      · rw [List.mem_singleton.mp h4]
        show cw ≤ M + (MIN_WORDS - 1)
        exact le_trans (le_trans hcw hAM) (Nat.le_add_right M _)

theorem emcsStep_bound (B S k : Nat)
    (hB : max MAX_CHAPTER_WORDS (max TARGET_WORDS (MIN_WORDS - 1 + S)) ≤ B)
    (result : List Chapter) (ch : Chapter)
    (hres : ∀ c ∈ result, c.wordCount ≤ B + (MIN_WORDS - 1) * k)
    (hch : ∀ s ∈ sentSplit ch.text, jsWordCount s ≤ S) :
    ∀ c ∈ emcsStep result ch,
      c.wordCount ≤ B + (MIN_WORDS - 1) * k +
        (if MAX_CHAPTER_WORDS < ch.wordCount then MIN_WORDS - 1 else 0) := by
  intro c hc
  simp only [emcsStep] at hc
  by_cases hsz : ch.wordCount ≤ MAX_CHAPTER_WORDS
  · rw [if_pos hsz] at hc
    rw [if_neg (not_lt.mpr hsz)]
    rcases List.mem_append.mp hc with hm1 | hm2
    · have := hres c hm1; omega
    · rw [List.mem_singleton.mp hm2]
      show ch.wordCount ≤ B + (MIN_WORDS - 1) * k + 0
      have h580 : MAX_CHAPTER_WORDS ≤ B := le_trans (le_max_left _ _) hB
      omega
  · rw [if_neg hsz] at hc
    rw [if_pos (lt_of_not_le hsz)]
    have hA : max TARGET_WORDS (MIN_WORDS - 1 + S) ≤ B + (MIN_WORDS - 1) * k :=
      le_trans (le_trans (le_max_right _ _) hB) (Nat.le_add_right _ _)
    have hloop := emcsLoop_spec (B + (MIN_WORDS - 1) * k) S hA
      (sentSplit ch.text) result [] 0 hch (Nat.zero_le _) hres
    exact emcsFlush_bound (B + (MIN_WORDS - 1) * k) S _ _ _ hloop.1 hloop.2 hA c hc

theorem emcs_fold_bound (B S : Nat)
    (hB : max MAX_CHAPTER_WORDS (max TARGET_WORDS (MIN_WORDS - 1 + S)) ≤ B) :
    ∀ (chapters acc : List Chapter) (k : Nat),
      (∀ ch ∈ chapters, ∀ s ∈ sentSplit ch.text, jsWordCount s ≤ S) →
      (∀ c ∈ acc, c.wordCount ≤ B + (MIN_WORDS - 1) * k) →
      ∀ c ∈ chapters.foldl emcsStep acc,
        c.wordCount ≤ B + (MIN_WORDS - 1) *
          (k + chapters.countP (fun ch => MAX_CHAPTER_WORDS < ch.wordCount)) := by
  intro chapters
  induction chapters with
  | nil =>
    intro acc k _ hacc c hc
    rw [List.foldl_nil] at hc
    have := hacc c hc
    simpa using this
  | cons ch rest ih =>
    intro acc k hS hacc c hc
    rw [List.foldl_cons] at hc
    by_cases hsz : MAX_CHAPTER_WORDS < ch.wordCount
    · have hstep : ∀ c2 ∈ emcsStep acc ch,
          c2.wordCount ≤ B + (MIN_WORDS - 1) * (k + 1) := by
        intro c2 hc2
        have hb := emcsStep_bound B S k hB acc ch hacc (hS ch (by simp)) c2 hc2
        rw [if_pos hsz] at hb
        have hm : (MIN_WORDS - 1) * (k + 1) = (MIN_WORDS - 1) * k + (MIN_WORDS - 1) :=
          Nat.mul_succ _ _
        omega
      have hrec := ih (emcsStep acc ch) (k + 1)
        (fun ch2 h2 => hS ch2 (List.mem_cons_of_mem _ h2)) hstep c hc
      have hcnt : (ch :: rest).countP (fun ch => MAX_CHAPTER_WORDS < ch.wordCount) =
          rest.countP (fun ch => MAX_CHAPTER_WORDS < ch.wordCount) + 1 := by
        simp [List.countP_cons, hsz]
      rw [hcnt]
      have harg : k + 1 + rest.countP (fun ch => MAX_CHAPTER_WORDS < ch.wordCount) =
          k + (rest.countP (fun ch => MAX_CHAPTER_WORDS < ch.wordCount) + 1) := by omega
      rw [harg] at hrec
      exact hrec
    · have hstep : ∀ c2 ∈ emcsStep acc ch,
          c2.wordCount ≤ B + (MIN_WORDS - 1) * k := by
        intro c2 hc2
        have hb := emcsStep_bound B S k hB acc ch hacc (hS ch (by simp)) c2 hc2
        rw [if_neg hsz] at hb
        omega
      have hrec := ih (emcsStep acc ch) k
        (fun ch2 h2 => hS ch2 (List.mem_cons_of_mem _ h2)) hstep c hc
      have hcnt : (ch :: rest).countP (fun ch => MAX_CHAPTER_WORDS < ch.wordCount) =
          rest.countP (fun ch => MAX_CHAPTER_WORDS < ch.wordCount) := by
        simp [List.countP_cons, hsz]
      rw [hcnt]
      exact hrec

/-- C1 (amended): the hard cap `MAX_CHAPTER_WORDS` is not an unconditional
bound on the output of `enforceMaxChapterSize`, but the following is: when
every sentence of every input chapter has at most `S` words, every output
chapter's word count is at most
`max MAX_CHAPTER_WORDS (max TARGET_WORDS (MIN_WORDS - 1 + S))` plus
`MIN_WORDS - 1` for each oversized input chapter — the undersized-tail merge
of the flush can add up to `MIN_WORDS - 1` words to an already-full chapter
once per oversized chapter processed. -/
theorem C1_amended (chapters : List Chapter) (S : Nat)
    (hS : ∀ ch ∈ chapters, ∀ s ∈ sentSplit ch.text, jsWordCount s ≤ S) :
    ∀ c ∈ enforceMaxChapterSize chapters,
      c.wordCount ≤
        max MAX_CHAPTER_WORDS (max TARGET_WORDS (MIN_WORDS - 1 + S)) +
          (MIN_WORDS - 1) *
            chapters.countP (fun ch => MAX_CHAPTER_WORDS < ch.wordCount) := by
  intro c hc
  have hres := emcs_fold_bound
    (max MAX_CHAPTER_WORDS (max TARGET_WORDS (MIN_WORDS - 1 + S))) S
    (le_refl _) chapters [] 0 hS (by intro c2 hc2; simp at hc2) c
    (by simpa [enforceMaxChapterSize] using hc)
  simpa using hres

/-- C1 (amended, witness): a single 600-word-marked chapter whose text is
`"a. b"` (every sentence has one word) satisfies the hypothesis with `S = 1`
and the resulting bound. -/
theorem C1_amended_witness :
    (∀ ch ∈ [({ index := 0, title := "T", text := "a. b".data, wordCount := 600 } : Chapter)],
        ∀ s ∈ sentSplit ch.text, jsWordCount s ≤ 1) ∧
    ∀ c ∈ enforceMaxChapterSize
        [({ index := 0, title := "T", text := "a. b".data, wordCount := 600 } : Chapter)],
      c.wordCount ≤
        max MAX_CHAPTER_WORDS (max TARGET_WORDS (MIN_WORDS - 1 + 1)) +
          (MIN_WORDS - 1) *
            ([({ index := 0, title := "T", text := "a. b".data, wordCount := 600 } : Chapter)].countP
              (fun ch => MAX_CHAPTER_WORDS < ch.wordCount)) :=
  ⟨by decide, C1_amended _ 1 (by decide)⟩

/-! ### Word-level glue lemmas (claim C2)

`wordsOf` observes a text modulo whitespace.  The lemmas below show that every
splitting, trimming and re-joining step of the non-marker paths of
`chunkIntoChapters` preserves the word sequence. -/

theorem wordsOf_nil_eq : wordsOf [] = [] := rfl

theorem wordsOf_one_eq (c : Char) : wordsOf [c] = if isWS c then [] else [[c]] := rfl

theorem wordsOf_two_eq (c c2 : Char) (cs : List Char) :
    wordsOf (c :: c2 :: cs) =
      if isWS c then wordsOf (c2 :: cs)
      else if isWS c2 then [c] :: wordsOf (c2 :: cs)
      else match wordsOf (c2 :: cs) with
        | w :: ws => (c :: w) :: ws
        | [] => [[c]] := rfl

theorem wordsOf_cons_ws (sp : Char) (h : isWS sp = true) (b : List Char) :
    wordsOf (sp :: b) = wordsOf b := by
  cases b with
  | nil => rw [wordsOf_one_eq, if_pos h, wordsOf_nil_eq]
  | cons c cs => rw [wordsOf_two_eq, if_pos h]

theorem wordsOf_cons_ne_nil (c : Char) (h : ¬ isWS c = true) (l : List Char) :
    wordsOf (c :: l) ≠ [] := by
  cases l with
  | nil => rw [wordsOf_one_eq, if_neg h]; simp
  | cons c2 cs =>
    rw [wordsOf_two_eq, if_neg h]
    by_cases h2 : isWS c2 = true
    · rw [if_pos h2]; simp
    · rw [if_neg h2]
      cases h3 : wordsOf (c2 :: cs) with
      | nil => simp
      | cons w ws => simp

theorem wordsOf_append_ws (sp : Char) (h : isWS sp = true) :
    ∀ a b : List Char, wordsOf (a ++ sp :: b) = wordsOf a ++ wordsOf b := by
  intro a
  induction a with
  | nil =>
    intro b
    rw [List.nil_append, wordsOf_cons_ws sp h, wordsOf_nil_eq, List.nil_append]
  | cons c a2 ih =>
    intro b
    by_cases hc : isWS c = true
    · rw [List.cons_append, wordsOf_cons_ws c hc, ih, wordsOf_cons_ws c hc]
    · cases a2 with
      | nil =>
        rw [show (c :: []) ++ sp :: b = c :: sp :: b from rfl]
        rw [wordsOf_two_eq, if_neg hc, if_pos h, wordsOf_cons_ws sp h]
        rw [wordsOf_one_eq, if_neg hc]
        rfl
      | cons c2 a3 =>
        rw [List.cons_append]
        rw [show (c2 :: a3) ++ sp :: b = c2 :: (a3 ++ sp :: b) from rfl]
        rw [wordsOf_two_eq, if_neg hc]
        by_cases h2 : isWS c2 = true
        · rw [if_pos h2]
          rw [show c2 :: (a3 ++ sp :: b) = (c2 :: a3) ++ sp :: b from rfl, ih]
          rw [wordsOf_two_eq, if_neg hc, if_pos h2]
          rfl
        · rw [if_neg h2]
          rw [show c2 :: (a3 ++ sp :: b) = (c2 :: a3) ++ sp :: b from rfl, ih]
          rw [wordsOf_two_eq, if_neg hc, if_neg h2]
          cases h3 : wordsOf (c2 :: a3) with
          | nil => exact absurd h3 (wordsOf_cons_ne_nil c2 h2 a3)
          | cons w ws => simp

theorem wordsOf_allWS : ∀ w : List Char, (∀ c ∈ w, isWS c = true) → wordsOf w = [] := by
  intro w
  induction w with
  | nil => intro _; rfl
  | cons c cs ih =>
    intro h
    rw [wordsOf_cons_ws c (h c (by simp))]
    exact ih (fun c2 h2 => h c2 (by simp [h2]))

theorem wordsOf_ws_pre : ∀ w a : List Char, (∀ c ∈ w, isWS c = true) →
    wordsOf (w ++ a) = wordsOf a := by
  intro w
  induction w with
  | nil => intro a _; rfl
  | cons c cs ih =>
    intro a h
    rw [List.cons_append, wordsOf_cons_ws c (h c (by simp))]
    exact ih a (fun c2 h2 => h c2 (by simp [h2]))

theorem wordsOf_ws_suf (a w : List Char) (h : ∀ c ∈ w, isWS c = true) :
    wordsOf (a ++ w) = wordsOf a := by
  cases w with
  | nil => rw [List.append_nil]
  | cons sp w2 =>
    rw [wordsOf_append_ws sp (h sp (by simp)) a w2]
    rw [wordsOf_allWS w2 (fun c2 h2 => h c2 (by simp [h2])), List.append_nil]

theorem wordsOf_append_headws (a rest : List Char)
    (h : ∀ c, rest.head? = some c → isWS c = true) :
    wordsOf (a ++ rest) = wordsOf a ++ wordsOf rest := by
  cases rest with
  | nil => rw [List.append_nil, wordsOf_nil_eq, List.append_nil]
  | cons sp r2 =>
    have hsp : isWS sp = true := h sp rfl
    rw [wordsOf_append_ws sp hsp, wordsOf_cons_ws sp hsp]

theorem wordsOf_rev_dropWhile (u : List Char) :
    wordsOf ((u.reverse.dropWhile isWS).reverse) = wordsOf u := by
  have hu2 : u.reverse.takeWhile isWS ++ u.reverse.dropWhile isWS = u.reverse :=
    List.takeWhile_append_dropWhile isWS u.reverse
  have hd : (u.reverse.dropWhile isWS).reverse ++ (u.reverse.takeWhile isWS).reverse = u := by
    have h3 := congrArg List.reverse hu2
    rw [List.reverse_append, List.reverse_reverse] at h3
    exact h3
  calc wordsOf ((u.reverse.dropWhile isWS).reverse)
      = wordsOf ((u.reverse.dropWhile isWS).reverse ++ (u.reverse.takeWhile isWS).reverse) :=
        (wordsOf_ws_suf _ _ (fun c hc => by
          rw [List.mem_reverse] at hc
          exact List.mem_takeWhile_imp hc)).symm
    _ = wordsOf u := by rw [hd]

theorem wordsOf_trim (t : List Char) : wordsOf (jsTrim t) = wordsOf t := by
  have h1 : wordsOf (t.dropWhile isWS) = wordsOf t := by
    have ht : t.takeWhile isWS ++ t.dropWhile isWS = t :=
      List.takeWhile_append_dropWhile isWS t
    calc wordsOf (t.dropWhile isWS)
        = wordsOf (t.takeWhile isWS ++ t.dropWhile isWS) :=
          (wordsOf_ws_pre _ _ (fun c hc => List.mem_takeWhile_imp hc)).symm
      _ = wordsOf t := by rw [ht]
  show wordsOf (((t.dropWhile isWS).reverse.dropWhile isWS).reverse) = wordsOf t
  rw [wordsOf_rev_dropWhile, h1]

theorem wordsOf_append_sep (sep : List Char) (hsep : sep ≠ [])
    (hws : ∀ c ∈ sep, isWS c = true) (x y : List Char) :
    wordsOf (x ++ sep ++ y) = wordsOf x ++ wordsOf y := by
  cases sep with
  | nil => exact absurd rfl hsep
  | cons sp sep2 =>
    rw [List.append_assoc, List.cons_append, wordsOf_append_ws sp (hws sp (by simp)),
        wordsOf_ws_pre sep2 y (fun c h2 => hws c (by simp [h2]))]

theorem wordsOf_intercalate_ws (sep : List Char) (hsep : sep ≠ [])
    (hws : ∀ c ∈ sep, isWS c = true) :
    ∀ pieces : List (List Char),
      wordsOf (List.intercalate sep pieces) = pieces.flatMap wordsOf := by
  intro pieces
  induction pieces with
  | nil => simp [List.intercalate, wordsOf_nil_eq]
  | cons x r ih =>
    cases r with
    | nil => simp [List.intercalate, List.intersperse]
    | cons y r2 =>
      have hstep : List.intercalate sep (x :: y :: r2) =
          x ++ sep ++ List.intercalate sep (y :: r2) := by
        simp [List.intercalate, List.intersperse]
      rw [hstep, wordsOf_append_sep sep hsep hws, ih]
      simp [List.flatMap_cons]

/-! Sentence-split glue: the pieces of `sentGo` concatenate to the input up to
the whitespace separators consumed at the split points. -/

theorem sentGo_true_cons (p c : Char) (cs : List Char) :
    sentGo true p (c :: cs) =
      if isWS c then sentGo true p cs
      else match sentGo false c cs with
        | q :: qs => (c :: q) :: qs
        | [] => [[c]] := rfl

theorem sentGo_false_cons (p c : Char) (cs : List Char) :
    sentGo false p (c :: cs) =
      if isWS c && isSentEnd p then [] :: sentGo true c cs
      else match sentGo false c cs with
        | q :: qs => (c :: q) :: qs
        | [] => [[c]] := rfl

theorem sentGo_words : ∀ (cs : List Char) (p : Char),
    ((sentGo true p cs).flatMap wordsOf = wordsOf cs) ∧
    (∃ q qs rest, sentGo false p cs = q :: qs ∧ cs = q ++ rest ∧
      (∀ c, rest.head? = some c → isWS c = true) ∧
      qs.flatMap wordsOf = wordsOf rest) := by
  intro cs
  induction cs with
  | nil =>
    intro p
    refine ⟨rfl, [], [], [], rfl, rfl, ?_, rfl⟩
    intro c h2
    simp at h2
  | cons c cs ih =>
    intro p
    constructor
    · by_cases hc : isWS c = true
      · rw [sentGo_true_cons, if_pos hc, (ih p).1, wordsOf_cons_ws c hc]
      · obtain ⟨q, qs, rest, he, hdec, hrest, hqs⟩ := (ih c).2
        rw [sentGo_true_cons, if_neg hc, he]
        show ((c :: q) :: qs).flatMap wordsOf = wordsOf (c :: cs)
        rw [List.flatMap_cons, hdec]
        rw [show c :: (q ++ rest) = (c :: q) ++ rest from rfl]
        rw [wordsOf_append_headws (c :: q) rest hrest, hqs]
    · by_cases hsep : (isWS c && isSentEnd p) = true
      · have hws2 : isWS c = true ∧ isSentEnd p = true := by simpa using hsep
        refine ⟨[], sentGo true c cs, c :: cs, ?_, rfl, ?_, ?_⟩
        · rw [sentGo_false_cons, if_pos hsep]
        · intro c2 h2
          simp at h2
          rw [← h2]
          exact hws2.1
        · rw [(ih c).1, wordsOf_cons_ws c hws2.1]
      · obtain ⟨q, qs, rest, he, hdec, hrest, hqs⟩ := (ih c).2
        refine ⟨c :: q, qs, rest, ?_, ?_, hrest, hqs⟩
        · rw [sentGo_false_cons, if_neg hsep, he]
        · rw [hdec]
          rfl

theorem sentSplit_words (text : List Char) :
    (sentSplit text).flatMap wordsOf = wordsOf text := by
  obtain ⟨q, qs, rest, he, hdec, hrest, hqs⟩ := (sentGo_words text 'A').2
  show (sentGo false 'A' text).flatMap wordsOf = wordsOf text
  rw [he, List.flatMap_cons, hqs, hdec, wordsOf_append_headws q rest hrest]

/-! Paragraph-split glue. -/

theorem mem_of_takeWhile {α : Type} (p : α → Bool) :
    ∀ (l : List α) (x : α), x ∈ l.takeWhile p → x ∈ l := by
  intro l
  induction l with
  | nil => intro x hx; simp at hx
  | cons a l2 ih =>
    intro x hx
    rw [List.takeWhile_cons] at hx
    by_cases hp : p a = true
    · rw [if_pos hp] at hx
      rcases List.mem_cons.mp hx with h1 | h2
      · simp [h1]
      · simp [ih x h2]
    · rw [if_neg hp] at hx
      simp at hx

theorem mem_of_dropWhile {α : Type} (p : α → Bool) :
    ∀ (l : List α) (x : α), x ∈ l.dropWhile p → x ∈ l := by
  intro l
  induction l with
  | nil => intro x hx; simp at hx
  | cons a l2 ih =>
    intro x hx
    rw [List.dropWhile_cons] at hx
    by_cases hp : p a = true
    · rw [if_pos hp] at hx
      simp [ih x hx]
    · rw [if_neg hp] at hx
      exact hx

theorem dropWhile_nl_head : ∀ ld : List Char, 1 ≤ nlCount ld →
    ∃ d2, ld.dropWhile (fun x => x ≠ '\n') = '\n' :: d2 := by
  intro ld
  induction ld with
  | nil => intro h; simp [nlCount] at h
  | cons c cs ih =>
    intro h
    rw [List.dropWhile_cons]
    by_cases hc : c = '\n'
    · subst hc
      rw [if_neg (by simp)]
      exact ⟨cs, rfl⟩
    · rw [if_pos (by simp [hc])]
      apply ih
      have hcnt : nlCount (c :: cs) = nlCount cs := by
        simp [nlCount, List.countP_cons, hc]
      omega

theorem paraGo_cons (c : Char) (cs : List Char) :
    paraGo (c :: cs) =
      if isWS c then (c :: (paraGo cs).1, (paraGo cs).2)
      else ([], consPiece c (paraRebuild (paraGo cs).1 (paraGo cs).2)) := rfl

theorem paraGo_spec : ∀ cs : List Char,
    ∃ ld pc ps rest,
      paraGo cs = (ld, pc :: ps) ∧
      cs = ld ++ pc ++ rest ∧
      (∀ c ∈ ld, isWS c = true) ∧
      (∀ c, rest.head? = some c → isWS c = true) ∧
      ps.flatMap wordsOf = wordsOf rest := by
  intro cs
  induction cs with
  | nil =>
    refine ⟨[], [], [], [], rfl, rfl, ?_, ?_, rfl⟩
    · intro c hc; simp at hc
    · intro c hc; simp at hc
  | cons c cs ih =>
    obtain ⟨ld, pc, ps, rest, hgo, hdec, hld, hrest, hps⟩ := ih
    by_cases hc : isWS c = true
    · refine ⟨c :: ld, pc, ps, rest, ?_, ?_, ?_, hrest, hps⟩
      · rw [paraGo_cons, if_pos hc, hgo]
      · rw [hdec]; rfl
      · intro c2 h2
        rcases List.mem_cons.mp h2 with h3 | h4
        · rw [h3]; exact hc
        · exact hld c2 h4
    · by_cases hnl : 2 ≤ nlCount ld
      · have hnlpos : 1 ≤ nlCount ld := by omega
        obtain ⟨d2, hd2⟩ := dropWhile_nl_head ld hnlpos
        have hsplit : ld.takeWhile (fun x => x ≠ '\n') ++ ld.dropWhile (fun x => x ≠ '\n') = ld :=
          List.takeWhile_append_dropWhile (fun x => x ≠ '\n') ld
        have ht2ws : ∀ x ∈ (ld.reverse.takeWhile (fun x => x ≠ '\n')).reverse, isWS x = true := by
          intro x hx
          rw [List.mem_reverse] at hx
          have h5 := mem_of_takeWhile _ ld.reverse x hx
          rw [List.mem_reverse] at h5
          exact hld x h5
        have hmidws : ∀ x ∈ ld.dropWhile (fun x => x ≠ '\n'), isWS x = true :=
          fun x hx => hld x (mem_of_dropWhile _ ld x hx)
        refine ⟨[], c :: ld.takeWhile (fun x => x ≠ '\n'),
                ((ld.reverse.takeWhile (fun x => x ≠ '\n')).reverse ++ pc) :: ps,
                ld.dropWhile (fun x => x ≠ '\n') ++ pc ++ rest, ?_, ?_, ?_, ?_, ?_⟩
        · rw [paraGo_cons, if_neg hc, hgo]
          show ([], consPiece c (paraRebuild ld (pc :: ps))) = _
          unfold paraRebuild
          rw [if_pos hnl]
          rfl
        · rw [hdec]
          conv_lhs => rw [← hsplit]
          simp only [List.nil_append, List.cons_append, List.append_assoc]
        · intro c2 h2; simp at h2
        · intro c2 h2
          rw [hd2] at h2
          simp only [List.cons_append, List.head?_cons, Option.some.injEq] at h2
          rw [← h2]
          decide
        · rw [List.flatMap_cons]
          rw [wordsOf_ws_pre _ pc ht2ws, hps]
          rw [List.append_assoc, wordsOf_ws_pre _ (pc ++ rest) hmidws]
          rw [wordsOf_append_headws pc rest hrest]
      · refine ⟨[], c :: (ld ++ pc), ps, rest, ?_, ?_, ?_, hrest, hps⟩
        · rw [paraGo_cons, if_neg hc, hgo]
          show ([], consPiece c (paraRebuild ld (pc :: ps))) = _
          unfold paraRebuild
          rw [if_neg hnl]
          rfl
        · rw [hdec]
          simp only [List.nil_append, List.cons_append, List.append_assoc]
        · intro c2 h2; simp at h2

theorem paraSplit_words (cs : List Char) :
    (paraSplit cs).flatMap wordsOf = wordsOf cs := by
  obtain ⟨ld, pc, ps, rest, hgo, hdec, hld, hrest, hps⟩ := paraGo_spec cs
  show (paraRebuild (paraGo cs).1 (paraGo cs).2).flatMap wordsOf = wordsOf cs
  rw [hgo]
  show (paraRebuild ld (pc :: ps)).flatMap wordsOf = wordsOf cs
  have ht1ws : ∀ x ∈ ld.takeWhile (fun c => c ≠ '\n'), isWS x = true :=
    fun x hx => hld x (mem_of_takeWhile _ ld x hx)
  have ht2ws : ∀ x ∈ (ld.reverse.takeWhile (fun c => c ≠ '\n')).reverse, isWS x = true := by
    intro x hx
    rw [List.mem_reverse] at hx
    have h5 := mem_of_takeWhile _ ld.reverse x hx
    rw [List.mem_reverse] at h5
    exact hld x h5
  unfold paraRebuild
  by_cases hnl : 2 ≤ nlCount ld
  · rw [if_pos hnl]
    show ((ld.takeWhile (fun c => c ≠ '\n')) ::
        ((ld.reverse.takeWhile (fun c => c ≠ '\n')).reverse ++ pc) :: ps).flatMap wordsOf =
      wordsOf cs
    rw [List.flatMap_cons, List.flatMap_cons]
    rw [wordsOf_allWS _ ht1ws, wordsOf_ws_pre _ pc ht2ws, hps, hdec]
    rw [List.append_assoc, wordsOf_ws_pre ld (pc ++ rest) hld]
    rw [wordsOf_append_headws pc rest hrest]
    simp
  · rw [if_neg hnl]
    show ((ld ++ pc) :: ps).flatMap wordsOf = wordsOf cs
    rw [List.flatMap_cons, hps, hdec]
    rw [wordsOf_ws_pre ld pc hld]
    rw [List.append_assoc, wordsOf_ws_pre ld (pc ++ rest) hld]
    rw [wordsOf_append_headws pc rest hrest]

/-! Word preservation through the greedy accumulation loops and the
size-enforcement pass. -/

theorem greedyLoop_nil (sep : List Char) (chapters : List Chapter)
    (current : List (List Char)) (cw : Nat) :
    greedyLoop sep chapters current cw [] = (chapters, current, cw) := rfl

theorem greedyLoop_cons (sep : List Char) (chapters : List Chapter)
    (current : List (List Char)) (cw : Nat) (piece : List Char)
    (rest : List (List Char)) :
    greedyLoop sep chapters current cw (piece :: rest) =
      if cw + jsWordCount piece > TARGET_WORDS ∧ cw ≥ MIN_WORDS then
        greedyLoop sep (chapters ++
          [{ index := chapters.length, title := chapTitle (chapters.length + 1),
             text := List.intercalate sep current, wordCount := cw }])
          [piece] (jsWordCount piece) rest
      else greedyLoop sep chapters (current ++ [piece]) (cw + jsWordCount piece) rest := rfl

theorem greedyLoop_words (sep : List Char) (hsep : sep ≠ [])
    (hws : ∀ c ∈ sep, isWS c = true) :
    ∀ (pieces : List (List Char)) (chapters : List Chapter)
      (current : List (List Char)) (cw : Nat),
      (greedyLoop sep chapters current cw pieces).1.flatMap (fun ch => wordsOf ch.text) ++
        (greedyLoop sep chapters current cw pieces).2.1.flatMap wordsOf =
      chapters.flatMap (fun ch => wordsOf ch.text) ++ current.flatMap wordsOf ++
        pieces.flatMap wordsOf := by
  intro pieces
  induction pieces with
  | nil =>
    intro chapters current cw
    rw [greedyLoop_nil]
    simp
  | cons piece rest ih =>
    intro chapters current cw
    rw [greedyLoop_cons]
    by_cases hcond : cw + jsWordCount piece > TARGET_WORDS ∧ cw ≥ MIN_WORDS
    · rw [if_pos hcond, ih]
      simp only [List.flatMap_append, List.flatMap_cons, List.flatMap_nil]
      rw [wordsOf_intercalate_ws sep hsep hws]
      simp [List.append_assoc]
    · rw [if_neg hcond, ih]
      simp [List.append_assoc]

theorem modifyLast_concat {α : Type} (f : α → α) :
    ∀ (l : List α) (a : α), modifyLast f (l ++ [a]) = l ++ [f a] := by
  intro l
  induction l with
  | nil => intro a; rfl
  | cons b l2 ih =>
    intro a
    cases l2 with
    | nil => rfl
    | cons c l3 =>
      have h1 : modifyLast f ((b :: c :: l3) ++ [a]) =
          b :: modifyLast f ((c :: l3) ++ [a]) := rfl
      rw [h1, ih]
      rfl

theorem greedyFlush_words (sep : List Char) (hsep : sep ≠ [])
    (hws : ∀ c ∈ sep, isWS c = true)
    (chapters : List Chapter) (current : List (List Char)) (cw : Nat) :
    (greedyFlush sep chapters current cw).flatMap (fun ch => wordsOf ch.text) =
      chapters.flatMap (fun ch => wordsOf ch.text) ++ current.flatMap wordsOf := by
  unfold greedyFlush
  by_cases h1 : current = []
  · rw [if_pos h1, h1]
    simp
  · rw [if_neg h1]
    by_cases h2 : cw < MIN_WORDS ∧ chapters ≠ []
    · rw [if_pos h2]
      obtain ⟨l2, a, rfl⟩ := (List.eq_nil_or_concat chapters).resolve_left h2.2
      rw [List.concat_eq_append, modifyLast_concat]
      simp only [List.flatMap_append, List.flatMap_cons, List.flatMap_nil, List.append_nil]
      show l2.flatMap (fun ch => wordsOf ch.text) ++
          wordsOf (a.text ++ sep ++ List.intercalate sep current) = _
      rw [wordsOf_append_sep sep hsep hws, wordsOf_intercalate_ws sep hsep hws]
      rw [List.append_assoc]
    · rw [if_neg h2]
      simp only [List.flatMap_append, List.flatMap_cons, List.flatMap_nil, List.append_nil]
      rw [wordsOf_intercalate_ws sep hsep hws]

theorem emcsLoop_words :
    ∀ (pieces : List (List Char)) (result : List Chapter)
      (current : List (List Char)) (cw : Nat),
      (emcsLoop result current cw pieces).1.flatMap (fun ch => wordsOf ch.text) ++
        (emcsLoop result current cw pieces).2.1.flatMap wordsOf =
      result.flatMap (fun ch => wordsOf ch.text) ++ current.flatMap wordsOf ++
        pieces.flatMap wordsOf := by
  intro pieces
  induction pieces with
  | nil =>
    intro result current cw
    rw [emcsLoop_nil]
    simp
  | cons piece rest ih =>
    intro result current cw
    rw [emcsLoop_cons]
    by_cases hcond : cw + jsWordCount piece > TARGET_WORDS ∧ cw ≥ MIN_WORDS
    · rw [if_pos hcond, ih]
      simp only [List.flatMap_append, List.flatMap_cons, List.flatMap_nil]
      rw [wordsOf_intercalate_ws [' '] (by simp) (by decide)]
      simp [List.append_assoc]
    · rw [if_neg hcond, ih]
      simp [List.append_assoc]

theorem emcsFlush_words (result : List Chapter) (current : List (List Char)) (cw : Nat) :
    (emcsFlush result current cw).flatMap (fun ch => wordsOf ch.text) =
      result.flatMap (fun ch => wordsOf ch.text) ++ current.flatMap wordsOf := by
  unfold emcsFlush
  by_cases h1 : current = []
  · rw [if_pos h1, h1]
    simp
  · rw [if_neg h1]
    by_cases h2 : cw < MIN_WORDS ∧ result ≠ []
    · rw [if_pos h2]
      obtain ⟨l2, a, rfl⟩ := (List.eq_nil_or_concat result).resolve_left h2.2
      rw [List.concat_eq_append, modifyLast_concat]
      simp only [List.flatMap_append, List.flatMap_cons, List.flatMap_nil, List.append_nil]
      show l2.flatMap (fun ch => wordsOf ch.text) ++
          wordsOf (a.text ++ [' '] ++ List.intercalate [' '] current) = _
      rw [wordsOf_append_sep [' '] (by simp) (by decide),
          wordsOf_intercalate_ws [' '] (by simp) (by decide)]
      rw [List.append_assoc]
    · rw [if_neg h2]
      simp only [List.flatMap_append, List.flatMap_cons, List.flatMap_nil, List.append_nil]
      rw [wordsOf_intercalate_ws [' '] (by simp) (by decide)]

theorem emcsStep_words (result : List Chapter) (ch : Chapter) :
    (emcsStep result ch).flatMap (fun c => wordsOf c.text) =
      result.flatMap (fun c => wordsOf c.text) ++ wordsOf ch.text := by
  simp only [emcsStep]
  by_cases hsz : ch.wordCount ≤ MAX_CHAPTER_WORDS
  · rw [if_pos hsz]
    simp
  · rw [if_neg hsz]
    rw [emcsFlush_words]
    have hl := emcsLoop_words (sentSplit ch.text) result [] 0
    rw [sentSplit_words] at hl
    simpa using hl

theorem emcs_fold_words : ∀ (chapters acc : List Chapter),
    (chapters.foldl emcsStep acc).flatMap (fun c => wordsOf c.text) =
      acc.flatMap (fun c => wordsOf c.text) ++
        chapters.flatMap (fun c => wordsOf c.text) := by
  intro chapters
  induction chapters with
  | nil => intro acc; simp
  | cons ch rest ih =>
    intro acc
    rw [List.foldl_cons, ih, emcsStep_words]
    simp [List.flatMap_cons, List.append_assoc]

theorem enforce_words (l : List Chapter) :
    (enforceMaxChapterSize l).flatMap (fun c => wordsOf c.text) =
      l.flatMap (fun c => wordsOf c.text) := by
  show (l.foldl emcsStep []).flatMap (fun c => wordsOf c.text) = _
  rw [emcs_fold_words l []]
  simp

theorem flatMap_words_filter : ∀ l : List (List Char),
    (l.filter (fun p => p.length > 0)).flatMap wordsOf = l.flatMap wordsOf := by
  intro l
  induction l with
  | nil => rfl
  | cons p r ih =>
    by_cases hp : p.length > 0
    · rw [List.filter_cons_of_pos (by simpa using hp), List.flatMap_cons,
          List.flatMap_cons, ih]
    · rw [List.filter_cons_of_neg (by simpa using hp), List.flatMap_cons, ih]
      have hnil : p = [] := List.eq_nil_of_length_eq_zero (by omega)
      rw [hnil, wordsOf_nil_eq, List.nil_append]

theorem flatMap_words_map_trim : ∀ l : List (List Char),
    (l.map jsTrim).flatMap wordsOf = l.flatMap wordsOf := by
  intro l
  induction l with
  | nil => rfl
  | cons p r ih =>
    rw [List.map_cons, List.flatMap_cons, List.flatMap_cons, wordsOf_trim, ih]

/-- C2 (amended): on every input in which fewer than two chapter markers are
found — so the lossy marker branch is skipped — the chapters returned by
`chunkIntoChapters` concatenate to the input text modulo whitespace: the word
sequences agree exactly. -/
theorem C2_amended (text : List Char) (h : (findMarkers text).length < 2) :
    (chunkIntoChapters text).flatMap (fun c => wordsOf c.text) = wordsOf text := by
  have hm : ¬ (findMarkers text).length ≥ 2 := by omega
  have hsent : (enforceMaxChapterSize
      (greedyFlush [' ']
        (greedyLoop [' '] [] [] 0 (sentSplit text)).1
        (greedyLoop [' '] [] [] 0 (sentSplit text)).2.1
        (greedyLoop [' '] [] [] 0 (sentSplit text)).2.2)).flatMap
          (fun c => wordsOf c.text) = wordsOf text := by
    rw [enforce_words, greedyFlush_words [' '] (by simp) (by decide)]
    have hg := greedyLoop_words [' '] (by simp) (by decide) (sentSplit text) [] [] 0
    simp only [List.flatMap_nil, List.nil_append] at hg
    rw [hg, sentSplit_words]
  have hparaW : (((paraSplit text).map jsTrim).filter (fun p => p.length > 0)).flatMap
      wordsOf = wordsOf text := by
    rw [flatMap_words_filter, flatMap_words_map_trim, paraSplit_words]
  by_cases h550 : jsWordCount text ≤ 550
  · simp only [chunkIntoChapters]
    rw [if_pos h550]
    simp
  · simp only [chunkIntoChapters]
    rw [if_neg h550, if_neg hm]
    by_cases hp2 : (((paraSplit text).map jsTrim).filter (fun p => p.length > 0)).length ≥ 2
    · rw [if_pos hp2]
      by_cases hc2 : (greedyFlush ['\n', '\n']
          (greedyLoop ['\n', '\n'] [] [] 0
            (((paraSplit text).map jsTrim).filter (fun p => p.length > 0))).1
          (greedyLoop ['\n', '\n'] [] [] 0
            (((paraSplit text).map jsTrim).filter (fun p => p.length > 0))).2.1
          (greedyLoop ['\n', '\n'] [] [] 0
            (((paraSplit text).map jsTrim).filter (fun p => p.length > 0))).2.2).length ≥ 2
      · rw [if_pos hc2]
        show (enforceMaxChapterSize _).flatMap (fun c => wordsOf c.text) = wordsOf text
        rw [enforce_words, greedyFlush_words ['\n', '\n'] (by simp) (by decide)]
        have hg := greedyLoop_words ['\n', '\n'] (by simp) (by decide)
          (((paraSplit text).map jsTrim).filter (fun p => p.length > 0)) [] [] 0
        simp only [List.flatMap_nil, List.nil_append] at hg
        rw [hg, hparaW]
      · rw [if_neg hc2]
        exact hsent
    · rw [if_neg hp2]
      exact hsent

/-- C2 (amended, witness): the twelve-character text `hello world` has no
chapter markers; its single `Full Text` chapter reproduces the two words. -/
theorem C2_amended_witness :
    (findMarkers "hello world".data).length < 2 ∧
    (chunkIntoChapters "hello world".data).flatMap (fun c => wordsOf c.text) =
      wordsOf "hello world".data :=
  ⟨by decide, C2_amended "hello world".data (by decide)⟩

end Mornin
